import Mathlib

set_option autoImplicit false

/-!
# git-browser: verification of the indexing core

Shallow embedding of the repository-discovery / commit-indexing /
branch-equivalence engine of the `git-browser` repository, together with
proofs of its specified properties.

The embedding follows the source:
* `src/infrastructure/git/client.rs` — `Git2Client::get_commits`
* `src/infrastructure/sqlite/commit_repo.rs` — `bulk_insert`,
  `get_latest_commit`, `find_diff_commits`
* `src/infrastructure/sqlite/branch_repo.rs` — `save_many`
* `src/services/worker.rs` — `IndexWorker::index_repository`, `index_branch`
* `src/services/scheduler.rs` — `run_index_cycle`, `index_repository`

Machine integers (`i64`, `usize`) are modelled as `Int` / `Nat`; the values
involved (ids, unix timestamps, row counts) never approach the `i64` range in
the modelled scenarios, and the source performs no wrapping arithmetic on
them.  SQLite tables are modelled as lists of rows in insertion order;
`ON CONFLICT ... DO NOTHING` / `DO UPDATE` become explicit key lookups.
-/

/-! ## Data model and operations, embedded from the source -/

/-- A commit record as produced by the git layer
(`GitCommit` in `src/ports/git.rs`): the revwalk yields these. -/
structure GitCommitRec where
  oid : String
  author_name : String
  author_email : String
  author_time : Int
  committer_name : String
  committer_email : String
  committer_time : Int
  summary : String
  message : Option String
  parent_oids : List String
deriving DecidableEq, Repr

/-- A branch record as produced by `list_branches`
(`GitBranch` in `src/ports/git.rs`). -/
structure GitBranchRec where
  name : String
  target_oid : String
  is_head : Bool
deriving DecidableEq, Repr

/-- The observable state of one on-disk repository, as seen through the
`GitPort` read operations used by the indexer: the list of remote-tracking
branches, and for every ref name the sequence of commits the revwalk
(`Sort::TIME` from the ref tip) yields.  Fidelity of the walk order to git is
an assumption about libgit2; the indexing code consumes the walk as a
sequence, which is what is embedded. -/
structure GitState where
  branches : List GitBranchRec
  walk : String → List GitCommitRec

/-- The loop body of `Git2Client::get_commits`
(`src/infrastructure/git/client.rs:132-168`): iterate the revwalk with a
running index; stop when the index reaches `limit` or when the walked oid
equals `since_oid`; skip (but keep walking past) commits with more than one
parent. -/
def getCommitsGo (limit : Nat) (since : Option String) :
    List GitCommitRec → Nat → List GitCommitRec
  | [], _ => []
  | c :: rest, idx =>
    if limit ≤ idx then []
    else if since == some c.oid then []
    else if 1 < c.parent_oids.length then getCommitsGo limit since rest (idx + 1)
    else c :: getCommitsGo limit since rest (idx + 1)

/-- `Git2Client::get_commits(path, ref, limit, since_oid)`: run the revwalk
loop from index 0 over the walk sequence of the requested ref. -/
def getCommits (walk : List GitCommitRec) (limit : Nat)
    (since : Option String) : List GitCommitRec :=
  getCommitsGo limit since walk 0

/-- Predicate: the walked commit is not the cursor commit. -/
def notSince (since : Option String) (c : GitCommitRec) : Bool :=
  !(since == some c.oid)

/-- Predicate: the walked commit is not a merge commit. -/
def nonMerge (c : GitCommitRec) : Bool :=
  c.parent_oids.length ≤ 1

/-- A row of the `commits` table (`Commit` in `src/domain/entities.rs`).
The database-assigned `id` column is omitted: no core logic reads it (the
`new.id IS NULL` test of the anti-join is a plain row-existence test).
Timestamps are unix seconds, exactly what the SQLite layer binds and reads
back via `DateTime::from_timestamp(..).timestamp()`. -/
structure CommitRow where
  repository_id : Int
  oid : String
  branch : String
  author_name : String
  author_email : String
  author_time : Int
  committer_name : String
  committer_email : String
  committer_time : Int
  summary : String
  message : Option String
  parent_oids : Option String
  created_at : Int
deriving DecidableEq, Repr

/-- A row of the `branches` table (`Branch` in `src/domain/entities.rs`),
again without the database-assigned `id`. -/
structure BranchRow where
  repository_id : Int
  name : String
  target_oid : String
  is_default : Bool
  updated_at : Int
deriving DecidableEq, Repr

/-- The unique key of the `commits` table:
`ON CONFLICT(repository_id, oid, branch)`. -/
def commitKey (c : CommitRow) : Int × String × String :=
  (c.repository_id, c.oid, c.branch)

/-- The unique key of the `branches` table:
`ON CONFLICT(repository_id, name)`. -/
def branchKey (b : BranchRow) : Int × String :=
  (b.repository_id, b.name)

/-- Row-existence test for a commit key. -/
def hasCommitKey (t : List CommitRow) (k : Int × String × String) : Bool :=
  t.any (fun r => commitKey r == k)

/-- Row-existence test for a branch key. -/
def hasBranchKey (t : List BranchRow) (k : Int × String) : Bool :=
  t.any (fun r => branchKey r == k)

/-- One `INSERT ... ON CONFLICT(repository_id, oid, branch) DO NOTHING` of
`SqliteCommitRepository::bulk_insert`: append the row unless its key is
already present. -/
def insertIgnore (t : List CommitRow) (c : CommitRow) : List CommitRow :=
  if hasCommitKey t (commitKey c) then t else t ++ [c]

/-- `SqliteCommitRepository::bulk_insert`
(`src/infrastructure/sqlite/commit_repo.rs:163-205`): insert-or-ignore every
commit of the batch inside one transaction; the returned count is incremented
once per batch element, whether or not the row was actually inserted. -/
def bulkInsert (t : List CommitRow) (cs : List CommitRow) :
    List CommitRow × Nat :=
  (cs.foldl insertIgnore t, cs.length)

/-- One `INSERT ... ON CONFLICT(repository_id, name) DO UPDATE` of
`SqliteBranchRepository::save_many`: replace the row with the same key
(refreshing `target_oid`, `is_default`, `updated_at`), else append it. -/
def upsertBranch (t : List BranchRow) (b : BranchRow) : List BranchRow :=
  if hasBranchKey t (branchKey b) then
    t.map (fun r => if branchKey r == branchKey b then b else r)
  else t ++ [b]

/-- `SqliteBranchRepository::save_many`
(`src/infrastructure/sqlite/branch_repo.rs:44-74`): batch upsert of branch
rows in one transaction. -/
def saveMany (t : List BranchRow) (bs : List BranchRow) : List BranchRow :=
  bs.foldl upsertBranch t

/-- The accumulator step of `ORDER BY author_time DESC LIMIT 1`: keep the row
with the strictly greatest `author_time` seen so far (first row wins on ties;
SQLite leaves tie order unspecified, a deterministic choice is embedded). -/
def pickLatest : Option CommitRow → CommitRow → Option CommitRow
  | none, c => some c
  | some b, c => if b.author_time < c.author_time then some c else some b

/-- The `WHERE repository_id = ? AND branch = ?` restriction shared by
`get_latest_commit` and the outer query of `find_diff_commits`. -/
def branchRows (t : List CommitRow) (rid : Int) (branch : String) :
    List CommitRow :=
  t.filter (fun c => c.repository_id == rid && c.branch == branch)

/-- `SqliteCommitRepository::get_latest_commit`
(`src/infrastructure/sqlite/commit_repo.rs:123-161`): the stored commit of
that repository and branch with the greatest `author_time`, if any. -/
def getLatestCommit (t : List CommitRow) (rid : Int) (branch : String) :
    Option CommitRow :=
  (branchRows t rid branch).foldl pickLatest none

/-- The `LEFT JOIN ... IS NULL` probe of `find_diff_commits`: does any stored
commit of `new_branch` in the same repository share author name and summary
with `c`? -/
def diffMatch (t : List CommitRow) (newBranch : String) (c : CommitRow) :
    Bool :=
  t.any (fun n =>
    n.repository_id == c.repository_id && n.branch == newBranch &&
    n.author_name == c.author_name && n.summary == c.summary)

/-- Insertion step of `ORDER BY committer_time DESC`: place `c` before the
first row with a strictly smaller `committer_time` (stable on ties). -/
def insertByCtDesc (c : CommitRow) : List CommitRow → List CommitRow
  | [] => [c]
  | d :: rest =>
    if d.committer_time < c.committer_time then c :: d :: rest
    else d :: insertByCtDesc c rest

/-- `ORDER BY committer_time DESC` over a result set. -/
def sortByCtDesc (l : List CommitRow) : List CommitRow :=
  l.foldr insertByCtDesc []

/-- `SqliteCommitRepository::find_diff_commits`
(`src/infrastructure/sqlite/commit_repo.rs:273-328`): commits stored on
`old_branch` of the repository with no author-name/summary counterpart on
`new_branch`, newest committer time first, truncated to `limit` rows.
The callers bind a non-negative `limit`, embedded as `Nat`. -/
def findDiffCommits (t : List CommitRow) (rid : Int)
    (oldBranch newBranch : String) (limit : Nat) : List CommitRow :=
  ((sortByCtDesc ((branchRows t rid oldBranch).filter
      (fun c => !(diffMatch t newBranch c)))).take limit)

/-- Character-list test: does `l` begin with `pre`?  Structural embedding of
Rust's `str::starts_with`. -/
def charsStartWith : List Char → List Char → Bool
  | _, [] => true
  | [], _ :: _ => false
  | c :: cs, d :: ds => c == d && charsStartWith cs ds

/-- `name.starts_with("origin/")` of the worker loop, embedded structurally
over the string's characters so that concrete runs evaluate. -/
def strStartsWith (s pre : String) : Bool :=
  charsStartWith s.data pre.data

/-- The error taxonomy relevant to the indexing core (`GitxError` in
`src/shared/error.rs`, collapsed to the two groups the control flow
distinguishes): persistence failures and VCS failures. -/
inductive IndexErr
  | store
  | vcs
deriving DecidableEq, Repr

/-- Failure injection for the fallible collaborators of one repository pass.
Each flag answers "does this call return `Err`?"; per-branch calls are keyed
by the name they receive so that distinct branches can fail independently. -/
structure FailSpec where
  listBranches : Bool
  saveMany : Bool
  getLatest : String → Bool
  getCommitsCall : String → Bool
  bulkInsertCall : String → Bool

/-- The all-succeed failure specification. -/
def noFail : FailSpec :=
  { listBranches := false
    saveMany := false
    getLatest := fun _ => false
    getCommitsCall := fun _ => false
    bulkInsertCall := fun _ => false }

/-- `IndexResult` of `src/services/worker.rs`. -/
structure IndexResult where
  commits_indexed : Nat
  branches_indexed : Nat
  branches_failed : Nat
deriving DecidableEq, Repr

/-- The zero-initialised `IndexResult::default()`. -/
def IndexResult.zero : IndexResult := ⟨0, 0, 0⟩

/-- Store-write events of one repository pass, in program order; used to
state the persistence-ordering guarantee. -/
inductive StoreEvent
  | saveManyEv
  | bulkInsertEv (branch : String)
deriving DecidableEq, Repr

/-- The conversion in `IndexWorker::index_branch`
(`src/services/worker.rs:130-148`): `Commit::new(..)` tagged with the short
branch name, then `.with_message(message.unwrap_or_default())` and
`.with_parents(parents)` (joined with commas); `created_at` is the wall clock
at conversion time, passed in as `now`. -/
def toDomainCommit (rid : Int) (branchName : String) (now : Int)
    (g : GitCommitRec) : CommitRow :=
  { repository_id := rid
    oid := g.oid
    branch := branchName
    author_name := g.author_name
    author_email := g.author_email
    author_time := g.author_time
    committer_name := g.committer_name
    committer_email := g.committer_email
    committer_time := g.committer_time
    summary := g.summary
    message := some (g.message.getD "")
    parent_oids := some (String.intercalate "," g.parent_oids)
    created_at := now }

/-- `IndexWorker::index_branch` (`src/services/worker.rs:101-164`): read the
cursor (`get_latest_commit`), fetch new commits since it, convert them and
`bulk_insert` the batch; the returned count is the batch length.  Alongside
the `Result`, the store-write events the call performed are returned. -/
def indexBranch (git : GitState) (fails : FailSpec) (maxCommits : Nat)
    (rid : Int) (now : Int) (table : List CommitRow)
    (refName branchName : String) :
    Except IndexErr (List CommitRow × Nat) × List StoreEvent :=
  if fails.getLatest branchName then (.error .store, [])
  else
    let sinceOid := (getLatestCommit table rid branchName).map (·.oid)
    if fails.getCommitsCall refName then (.error .vcs, [])
    else
      let commits := getCommits (git.walk refName) maxCommits sinceOid
      if commits.isEmpty then (.ok (table, 0), [])
      else
        let batch := commits.map (toDomainCommit rid branchName now)
        if fails.bulkInsertCall branchName then
          (.error .store, [StoreEvent.bulkInsertEv branchName])
        else
          (.ok ((bulkInsert table batch).1, batch.length),
            [StoreEvent.bulkInsertEv branchName])

/-- The per-branch loop of `IndexWorker::index_repository`
(`src/services/worker.rs:67-89`): branches whose name does not start with
`origin/` are skipped; for the rest, `index_branch` is called with the full
ref path `refs/remotes/<name>` and the short name, a success adds to
`commits_indexed`/`branches_indexed`, an error of any kind is caught and
counted in `branches_failed`, and the loop continues either way. -/
def branchLoop (git : GitState) (fails : FailSpec) (maxCommits : Nat)
    (rid : Int) (now : Int) :
    List GitBranchRec → List CommitRow → IndexResult →
    List CommitRow × IndexResult × List StoreEvent
  | [], table, res => (table, res, [])
  | b :: rest, table, res =>
    if strStartsWith b.name "origin/" then
      match indexBranch git fails maxCommits rid now table
          ("refs/remotes/" ++ b.name) b.name with
      | (.ok (t, cnt), evs) =>
        let next := branchLoop git fails maxCommits rid now rest t
          { res with
            commits_indexed := res.commits_indexed + cnt
            branches_indexed := res.branches_indexed + 1 }
        (next.1, next.2.1, evs ++ next.2.2)
      | (.error _, evs) =>
        let next := branchLoop git fails maxCommits rid now rest table
          { res with branches_failed := res.branches_failed + 1 }
        (next.1, next.2.1, evs ++ next.2.2)
    else branchLoop git fails maxCommits rid now rest table res

/-- The persisted store shared by all repository tasks: the `commits` and
`branches` tables. -/
structure Store where
  commits : List CommitRow
  branches : List BranchRow
deriving DecidableEq, Repr

/-- `IndexWorker::index_repository` (`src/services/worker.rs:41-98`): list
branches (a failure aborts the pass), persist all of them as one batch upsert
when the list is non-empty (a failure aborts the pass), then run the
per-branch loop.  Returns the store as left by the pass, the `Result`, and
the store-write events in program order. -/
def indexRepositoryW (git : GitState) (fails : FailSpec) (maxCommits : Nat)
    (rid : Int) (now : Int) (st : Store) :
    Store × Except IndexErr IndexResult × List StoreEvent :=
  if fails.listBranches then (st, .error .vcs, [])
  else
    let bs := git.branches
    let bents := bs.map (fun b =>
      { repository_id := rid
        name := b.name
        target_oid := b.target_oid
        is_default := b.is_head
        updated_at := now : BranchRow })
    if bents.isEmpty then
      let out := branchLoop git fails maxCommits rid now bs st.commits
        IndexResult.zero
      ({ commits := out.1, branches := st.branches }, .ok out.2.1, out.2.2)
    else if fails.saveMany then (st, .error .store, [])
    else
      let brs := saveMany st.branches bents
      let out := branchLoop git fails maxCommits rid now bs st.commits
        IndexResult.zero
      ({ commits := out.1, branches := brs }, .ok out.2.1,
        StoreEvent.saveManyEv :: out.2.2)

/-- Outcome of the bounded fetch in `IndexerScheduler::index_repository`
(`src/services/scheduler.rs:166-186`): success, a `VcsError`, or the timeout
elapsing. -/
inductive FetchOutcome
  | fetched (branchesUpdated : Nat)
  | failed
  | timedOut
deriving DecidableEq, Repr

/-- Everything one repository's spawned task can observe: failure flags of
the repository-row lookup/save, the fetch outcome, whether the task body
panics, and the inputs of the worker invocation. -/
structure RepoTaskEnv where
  findByPathFails : Bool
  saveRepoFails : Bool
  fetch : FetchOutcome
  panics : Bool
  git : GitState
  fails : FailSpec
  maxCommits : Nat
  repoId : Int
  now : Int
  st : Store

/-- `IndexerScheduler::index_repository` (`src/services/scheduler.rs:142-200`)
without the panic (which is caught at the join point, see `runRepoTask`):
look up / create the repository row (`?` propagates a store error), attempt
the bounded fetch — success, error and timeout all fall through to the worker
("continuing with local data") — then delegate to
`IndexWorker::index_repository`, whose error propagates.  The only success
value ever returned is `true`. -/
def schedIndexRepository (env : RepoTaskEnv) : Except IndexErr Bool :=
  if env.findByPathFails then .error .store
  else if env.saveRepoFails then .error .store
  else
    match env.fetch,
      (indexRepositoryW env.git env.fails env.maxCommits env.repoId env.now
        env.st).2.1 with
    | _, .error e => .error e
    | _, .ok _ => .ok true

/-- What the join point `task.await` of `run_index_cycle` sees for one task:
a returned `Ok(indexed)`, a returned `Err`, or a panic surfaced as a join
error. -/
inductive TaskOutcome
  | ok (indexed : Bool)
  | errored
  | panicked
deriving DecidableEq, Repr

/-- Run one repository's spawned task: a panic anywhere in the body is
converted to a join error at `task.await`; otherwise the task returns the
result of `schedIndexRepository`. -/
def runRepoTask (env : RepoTaskEnv) : TaskOutcome :=
  if env.panics then .panicked
  else
    match schedIndexRepository env with
    | .ok b => .ok b
    | .error _ => .errored

/-- `IndexStats` of `src/services/scheduler.rs`. -/
structure IndexStats where
  repos_discovered : Nat
  repos_synced : Nat
  repos_failed : Nat
deriving DecidableEq, Repr

/-- The join loop of `run_index_cycle` (`src/services/scheduler.rs:120-136`):
`Ok(Ok(true))` counts as synced, `Ok(Ok(false))` counts as nothing,
`Ok(Err(_))` and a panicked join both count as failed. -/
def aggregateOutcomes (outs : List TaskOutcome) (s : IndexStats) :
    IndexStats :=
  outs.foldl
    (fun acc o =>
      match o with
      | .ok b =>
        if b then { acc with repos_synced := acc.repos_synced + 1 } else acc
      | .errored => { acc with repos_failed := acc.repos_failed + 1 }
      | .panicked => { acc with repos_failed := acc.repos_failed + 1 })
    s

/-- `IndexerScheduler::run_index_cycle` (`src/services/scheduler.rs:76-139`)
from the point where discovery has produced the task environments: record
`repos_discovered`, spawn one task per repository, await them all and
aggregate. -/
def runIndexCycle (envs : List RepoTaskEnv) : IndexStats :=
  aggregateOutcomes (envs.map runRepoTask)
    { repos_discovered := envs.length, repos_synced := 0, repos_failed := 0 }

/-- The commit records one `index_branch` call fetches: `get_commits` over
the walk of the ref, bounded by `max_commits_per_branch`, since the cursor
(`get_latest_commit`) of the table it starts from. -/
def branchEmission (W : List GitCommitRec) (maxCommits : Nat) (rid : Int)
    (table : List CommitRow) (branchName : String) : List GitCommitRec :=
  getCommits W maxCommits ((getLatestCommit table rid branchName).map (·.oid))

/-- The commit table after one successful `index_branch` call: the fetched
records, converted, bulk-inserted into the table. -/
def branchPass (W : List GitCommitRec) (maxCommits : Nat) (rid : Int)
    (now : Int) (table : List CommitRow) (branchName : String) :
    List CommitRow :=
  (bulkInsert table
    ((branchEmission W maxCommits rid table branchName).map
      (toDomainCommit rid branchName now))).1

/-- The commit-table component of the per-branch loop, which depends neither
on the running `IndexResult` nor on the event trace. -/
def branchLoopTbl (git : GitState) (fails : FailSpec) (maxCommits : Nat)
    (rid : Int) (now : Int) :
    List GitBranchRec → List CommitRow → List CommitRow
  | [], table => table
  | b :: rest, table =>
    if strStartsWith b.name "origin/" then
      match (indexBranch git fails maxCommits rid now table
          ("refs/remotes/" ++ b.name) b.name).1 with
      | .ok (t, _) => branchLoopTbl git fails maxCommits rid now rest t
      | .error _ => branchLoopTbl git fails maxCommits rid now rest table
    else branchLoopTbl git fails maxCommits rid now rest table

/-- A two-commit, one-branch repository used to witness C1. -/
def c1Git : GitState :=
  { branches := [{ name := "origin/main", target_oid := "a2", is_head := false }]
    walk := fun r =>
      if r == "refs/remotes/origin/main" then
        [{ oid := "a2", author_name := "ann", author_email := "a@x.io"
           author_time := 20, committer_name := "ann"
           committer_email := "a@x.io", committer_time := 20
           summary := "second", message := none, parent_oids := ["a1"] },
         { oid := "a1", author_name := "ann", author_email := "a@x.io"
           author_time := 10, committer_name := "ann"
           committer_email := "a@x.io", committer_time := 10
           summary := "first", message := none, parent_oids := [] }]
      else [] }

/-- An initially empty store used to witness C1. -/
def c1St0 : Store := { commits := [], branches := [] }

/-- A walk containing one merge commit and one ordinary commit, used to
witness C2. -/
def c2Walk : List GitCommitRec :=
  [{ oid := "mg", author_name := "bob", author_email := "b@x.io"
     author_time := 30, committer_name := "bob", committer_email := "b@x.io"
     committer_time := 30, summary := "merge it", message := none
     parent_oids := ["p1", "p2"] },
   { oid := "c1", author_name := "bob", author_email := "b@x.io"
     author_time := 20, committer_name := "bob", committer_email := "b@x.io"
     committer_time := 20, summary := "work", message := none
     parent_oids := ["p0"] }]

/-- A walk whose first slot is a merge commit, used for C4: the merge
consumes a slot of `limit` without being emitted. -/
def c4Walk : List GitCommitRec :=
  [{ oid := "m", author_name := "eva", author_email := "e@x.io"
     author_time := 30, committer_name := "eva", committer_email := "e@x.io"
     committer_time := 30, summary := "merge", message := none
     parent_oids := ["x", "q"] },
   { oid := "x", author_name := "eva", author_email := "e@x.io"
     author_time := 20, committer_name := "eva", committer_email := "e@x.io"
     committer_time := 20, summary := "one", message := none
     parent_oids := ["y"] },
   { oid := "y", author_name := "eva", author_email := "e@x.io"
     author_time := 10, committer_name := "eva", committer_email := "e@x.io"
     committer_time := 10, summary := "two", message := none
     parent_oids := [] }]

/-- A repository whose branch `origin/m` has both walked commits already
stored, used for C9: the pass re-fetches one commit that is already present. -/
def c9Git : GitState :=
  { branches := [{ name := "origin/m", target_oid := "x", is_head := false }]
    walk := fun r =>
      if r == "refs/remotes/origin/m" then
        [{ oid := "a", author_name := "kim", author_email := "k@x.io"
           author_time := 5, committer_name := "kim"
           committer_email := "k@x.io", committer_time := 5
           summary := "tip by author time order quirk", message := none
           parent_oids := ["x"] },
         { oid := "x", author_name := "kim", author_email := "k@x.io"
           author_time := 100, committer_name := "kim"
           committer_email := "k@x.io", committer_time := 100
           summary := "old", message := none, parent_oids := [] }]
      else [] }

/-- A store already holding both commits of `c9Git`; the cursor row `x` has
the greatest `author_time`. -/
def c9St : Store :=
  { commits :=
      [{ repository_id := 1, oid := "x", branch := "origin/m"
         author_name := "kim", author_email := "k@x.io", author_time := 100
         committer_name := "kim", committer_email := "k@x.io"
         committer_time := 100, summary := "old", message := some ""
         parent_oids := some "", created_at := 40 },
       { repository_id := 1, oid := "a", branch := "origin/m"
         author_name := "kim", author_email := "k@x.io", author_time := 5
         committer_name := "kim", committer_email := "k@x.io"
         committer_time := 5, summary := "tip by author time order quirk"
         message := some "", parent_oids := some "x", created_at := 40 }]
    branches := [] }

/-- A one-branch repository whose pass performs one branch upsert followed by
one commit bulk insert, used to witness C8. -/
def c8Git : GitState :=
  { branches :=
      [{ name := "origin/main", target_oid := "h1", is_head := false }]
    walk := fun r =>
      if r == "refs/remotes/origin/main" then
        [{ oid := "h1", author_name := "lou", author_email := "l@x.io"
           author_time := 11, committer_name := "lou"
           committer_email := "l@x.io", committer_time := 11
           summary := "hello", message := none, parent_oids := [] }]
      else [] }

/-- The empty store used to witness C8. -/
def c8St : Store := { commits := [], branches := [] }

/-- A two-branch repository whose first branch's `bulk_insert` fails with a
`StoreError`, used for C7. -/
def c7Git : GitState :=
  { branches :=
      [{ name := "origin/a", target_oid := "a1", is_head := false },
       { name := "origin/b", target_oid := "b1", is_head := false }]
    walk := fun r =>
      if r == "refs/remotes/origin/a" then
        [{ oid := "a1", author_name := "max", author_email := "m@x.io"
           author_time := 7, committer_name := "max"
           committer_email := "m@x.io", committer_time := 7
           summary := "on a", message := none, parent_oids := [] }]
      else if r == "refs/remotes/origin/b" then
        [{ oid := "b1", author_name := "max", author_email := "m@x.io"
           author_time := 8, committer_name := "max"
           committer_email := "m@x.io", committer_time := 8
           summary := "on b", message := none, parent_oids := [] }]
      else [] }

/-- Failure injection for C7: only the `bulk_insert` of branch `origin/a`
returns a `StoreError`. -/
def c7Fails : FailSpec :=
  { listBranches := false
    saveMany := false
    getLatest := fun _ => false
    getCommitsCall := fun _ => false
    bulkInsertCall := fun s => s == "origin/a" }

/-- The empty store used for C7. -/
def c7St : Store := { commits := [], branches := [] }

/-- A repository with one `origin/` branch and one non-`origin/` branch,
used to witness C10. -/
def c10Git : GitState :=
  { branches :=
      [{ name := "origin/dev", target_oid := "d1", is_head := false },
       { name := "upstream/dev", target_oid := "u1", is_head := false }]
    walk := fun r =>
      if r == "refs/remotes/origin/dev" then
        [{ oid := "d1", author_name := "pat", author_email := "p@x.io"
           author_time := 3, committer_name := "pat"
           committer_email := "p@x.io", committer_time := 3
           summary := "dev work", message := none, parent_oids := [] }]
      else
        [{ oid := "u1", author_name := "pat", author_email := "p@x.io"
           author_time := 4, committer_name := "pat"
           committer_email := "p@x.io", committer_time := 4
           summary := "upstream work", message := none, parent_oids := [] }]
  }

/-- The empty store used to witness C10. -/
def c10St : Store := { commits := [], branches := [] }

/-- Commit-row constructor for the C3 scenario rows (repository 1). -/
def c3Row (oid branch an su : String) (ct : Int) : CommitRow :=
  { repository_id := 1, oid := oid, branch := branch, author_name := an
    author_email := "e@x.io", author_time := ct, committer_name := an
    committer_email := "e@x.io", committer_time := ct, summary := su
    message := none, parent_oids := none, created_at := 0 }

/-- Stored table for C3: commit `o1` on branch A was cherry-picked to branch
B as `o2` (same author and summary, different oid); `o3` is A-only. -/
def c3Table : List CommitRow :=
  [c3Row "o1" "A" "x" "s" 10, c3Row "o2" "B" "x" "s" 11,
   c3Row "o3" "A" "y" "t" 12]

/-- Ancestry relative to a walked history: `AncestorIn walk c d` holds when
`d` is reachable from `c` through parent-oid links among the walked
commits. -/
inductive AncestorIn (walk : List GitCommitRec) :
    GitCommitRec → GitCommitRec → Prop
  | parent {c d : GitCommitRec} : c ∈ walk → d ∈ walk →
      d.oid ∈ c.parent_oids → AncestorIn walk c d
  | trans {c d e : GitCommitRec} : AncestorIn walk c d →
      AncestorIn walk d e → AncestorIn walk c e

/-- A two-commit walk (tip `a2` with parent `a1`) used to witness C5. -/
def c5Walk : List GitCommitRec :=
  [{ oid := "a2", author_name := "sam", author_email := "s@x.io"
     author_time := 22, committer_name := "sam", committer_email := "s@x.io"
     committer_time := 22, summary := "tip", message := none
     parent_oids := ["a1"] },
   { oid := "a1", author_name := "sam", author_email := "s@x.io"
     author_time := 21, committer_name := "sam", committer_email := "s@x.io"
     committer_time := 21, summary := "root", message := none
     parent_oids := [] }]

/-! ## Theorems -/

theorem getCommitsGo_eq (limit : Nat) (since : Option String) :
    ∀ (walk : List GitCommitRec) (idx : Nat),
      getCommitsGo limit since walk idx =
        ((walk.take (limit - idx)).takeWhile (notSince since)).filter nonMerge := by
  intro walk
  induction walk with
  | nil => intro idx; simp [getCommitsGo]
  | cons c rest ih =>
    intro idx
    by_cases hlim : limit ≤ idx
    · have : limit - idx = 0 := Nat.sub_eq_zero_of_le hlim
      simp [getCommitsGo, hlim, this]
    · have hpos : limit - idx = (limit - (idx + 1)) + 1 := by omega
      by_cases hs : since == some c.oid
      · simp [getCommitsGo, hlim, hs, hpos, List.takeWhile, notSince]
      · by_cases hm : 1 < c.parent_oids.length
        · have hnm : nonMerge c = false := by
            simp [nonMerge]; omega
          simp [getCommitsGo, hlim, hs, hm, hpos, List.takeWhile, notSince,
            ih (idx + 1), hnm]
        · have hnm : nonMerge c = true := by
            simp [nonMerge]; omega
          simp [getCommitsGo, hlim, hs, hm, hpos, List.takeWhile, notSince,
            ih (idx + 1), hnm]

/-- Characterisation of `get_commits`: the returned records are exactly the
non-merge commits among the first `limit` walked commits, cut off (exclusive)
at the first occurrence of `since_oid`.  Merge commits and the cursor check
consume walk slots: the `idx >= limit` test counts every walked commit, not
every emitted record. -/
theorem getCommits_eq (walk : List GitCommitRec) (limit : Nat)
    (since : Option String) :
    getCommits walk limit since =
      ((walk.take limit).takeWhile (notSince since)).filter nonMerge := by
  have h := getCommitsGo_eq limit since walk 0
  simpa [getCommits] using h

theorem mem_takeWhile_pred {α} (p : α → Bool) :
    ∀ (l : List α) (a : α), a ∈ l.takeWhile p → p a = true := by
  intro l
  induction l with
  | nil => simp [List.takeWhile]
  | cons x xs ih =>
    intro a h
    by_cases hx : p x
    · simp [List.takeWhile, hx] at h
      rcases h with h | h
      · simpa [h] using hx
      · exact ih a h
    · simp [List.takeWhile, hx] at h

theorem mem_of_mem_takeWhile {α} (p : α → Bool) :
    ∀ (l : List α) (a : α), a ∈ l.takeWhile p → a ∈ l := by
  intro l
  induction l with
  | nil => simp [List.takeWhile]
  | cons x xs ih =>
    intro a h
    by_cases hx : p x
    · simp [List.takeWhile, hx] at h
      rcases h with h | h
      · simp [h]
      · exact List.mem_cons_of_mem _ (ih a h)
    · simp [List.takeWhile, hx] at h

theorem mem_takeWhile_take {α} (p : α → Bool) :
    ∀ (n : Nat) (l : List α) (a : α),
      a ∈ (l.take n).takeWhile p → a ∈ l.takeWhile p := by
  intro n
  induction n with
  | zero => simp [List.takeWhile]
  | succ n ih =>
    intro l a h
    cases l with
    | nil => simp at h
    | cons x xs =>
      by_cases hx : p x
      · simp [List.takeWhile, hx] at h ⊢
        rcases h with h | h
        · exact Or.inl h
        · exact Or.inr (ih xs a h)
      · simp [List.takeWhile, hx] at h

/-- If `a` survives `takeWhile p` and fails `q`, then everything surviving
`takeWhile q` also survives `takeWhile p`: the `q`-cut happens no later than
the `p`-cut. -/
theorem takeWhile_mem_mono {α} (p q : α → Bool) :
    ∀ (l : List α) (a : α), q a = false → a ∈ l.takeWhile p →
      ∀ x ∈ l.takeWhile q, x ∈ l.takeWhile p := by
  intro l
  induction l with
  | nil => simp [List.takeWhile]
  | cons c rest ih =>
    intro a hqa ha x hx
    by_cases hqc : q c
    · by_cases hpc : p c
      · simp [List.takeWhile, hpc] at ha
        simp [List.takeWhile, hqc] at hx
        rcases hx with hx | hx
        · simp [List.takeWhile, hpc, hx]
        · rcases ha with ha | ha
          · exfalso
            rw [ha] at hqa
            rw [hqa] at hqc
            exact Bool.false_ne_true hqc
          · have := ih a hqa ha x hx
            simp [List.takeWhile, hpc]
            exact Or.inr this
      · simp [List.takeWhile, hpc] at ha
    · simp [List.takeWhile, hqc] at hx

theorem hasCommitKey_iff (t : List CommitRow) (k : Int × String × String) :
    hasCommitKey t k = true ↔ k ∈ t.map commitKey := by
  simp [hasCommitKey, List.any_eq_true, List.mem_map]

theorem insertIgnore_keys_mono (t : List CommitRow) (c : CommitRow)
    (k : Int × String × String) (h : k ∈ t.map commitKey) :
    k ∈ (insertIgnore t c).map commitKey := by
  unfold insertIgnore
  by_cases hc : hasCommitKey t (commitKey c)
  · simpa [hc] using h
  · simp [hc]
    rcases List.mem_map.mp h with ⟨r, hr, hk⟩
    exact Or.inl ⟨r, hr, hk⟩

theorem insertIgnore_keys_self (t : List CommitRow) (c : CommitRow) :
    commitKey c ∈ (insertIgnore t c).map commitKey := by
  unfold insertIgnore
  by_cases hc : hasCommitKey t (commitKey c)
  · simpa [hc] using (hasCommitKey_iff t (commitKey c)).mp hc
  · simp [hc]

theorem foldl_insertIgnore_keys_mono (cs : List CommitRow) :
    ∀ (t : List CommitRow) (k : Int × String × String),
      k ∈ t.map commitKey → k ∈ (cs.foldl insertIgnore t).map commitKey := by
  induction cs with
  | nil => intro t k h; simpa using h
  | cons c cs ih =>
    intro t k h
    exact ih (insertIgnore t c) k (insertIgnore_keys_mono t c k h)

/-- After `bulk_insert`, the key of every batch element is present in the
table, whether it was inserted or ignored. -/
theorem bulkInsert_key_mem (cs : List CommitRow) :
    ∀ (t : List CommitRow) (c : CommitRow), c ∈ cs →
      commitKey c ∈ ((bulkInsert t cs).1).map commitKey := by
  induction cs with
  | nil => intro t c h; simp at h
  | cons d cs ih =>
    intro t c h
    rcases List.mem_cons.mp h with h | h
    · subst h
      exact foldl_insertIgnore_keys_mono cs (insertIgnore t c) _
        (insertIgnore_keys_self t c)
    · exact ih (insertIgnore t d) c h

/-- `bulk_insert` of a batch whose keys are all already present leaves the
table unchanged: the insert-or-ignore is a no-op row-wise. -/
theorem bulkInsert_noop (cs : List CommitRow) :
    ∀ (t : List CommitRow),
      (∀ c ∈ cs, commitKey c ∈ t.map commitKey) →
      (bulkInsert t cs).1 = t := by
  induction cs with
  | nil => intro t _; rfl
  | cons c cs ih =>
    intro t h
    have hc : hasCommitKey t (commitKey c) = true :=
      (hasCommitKey_iff t (commitKey c)).mpr (h c (List.mem_cons_self c cs))
    have : insertIgnore t c = t := by simp [insertIgnore, hc]
    show (cs.foldl insertIgnore (insertIgnore t c), cs.length).1 = t
    rw [this]
    exact ih t (fun d hd => h d (List.mem_cons_of_mem c hd))

/-- `bulk_insert` only appends rows, and appends only rows of its batch. -/
theorem bulkInsert_decomp (cs : List CommitRow) :
    ∀ (t : List CommitRow),
      ∃ Δ, (bulkInsert t cs).1 = t ++ Δ ∧ ∀ d ∈ Δ, d ∈ cs := by
  induction cs with
  | nil => intro t; exact ⟨[], by simp [bulkInsert], by simp⟩
  | cons c cs ih =>
    intro t
    by_cases hc : hasCommitKey t (commitKey c)
    · rcases ih t with ⟨Δ, hΔ, hmem⟩
      refine ⟨Δ, ?_, fun d hd => List.mem_cons_of_mem c (hmem d hd)⟩
      show (cs.foldl insertIgnore (insertIgnore t c), _).1 = t ++ Δ
      simpa [insertIgnore, hc] using hΔ
    · rcases ih (t ++ [c]) with ⟨Δ, hΔ, hmem⟩
      refine ⟨c :: Δ, ?_, ?_⟩
      · show (cs.foldl insertIgnore (insertIgnore t c), _).1 = t ++ c :: Δ
        have : insertIgnore t c = t ++ [c] := by simp [insertIgnore, hc]
        rw [this]
        simpa using hΔ
      · intro d hd
        rcases List.mem_cons.mp hd with hd | hd
        · simp [hd]
        · exact List.mem_cons_of_mem c (hmem d hd)

theorem hasBranchKey_iff (t : List BranchRow) (k : Int × String) :
    hasBranchKey t k = true ↔ k ∈ t.map branchKey := by
  simp [hasBranchKey, List.any_eq_true, List.mem_map]

theorem upsertBranch_keys_self (t : List BranchRow) (b : BranchRow) :
    branchKey b ∈ (upsertBranch t b).map branchKey := by
  unfold upsertBranch
  by_cases hb : hasBranchKey t (branchKey b)
  · simp [hb]
    rcases List.mem_map.mp ((hasBranchKey_iff t (branchKey b)).mp hb) with
      ⟨r, hr, hk⟩
    refine ⟨r, hr, ?_⟩
    simp [hk]
  · simp [hb]

theorem upsertBranch_keys_mono (t : List BranchRow) (b : BranchRow)
    (k : Int × String) (h : k ∈ t.map branchKey) :
    k ∈ (upsertBranch t b).map branchKey := by
  unfold upsertBranch
  rcases List.mem_map.mp h with ⟨r, hr, hk⟩
  by_cases hb : hasBranchKey t (branchKey b)
  · rw [if_pos hb]
    refine List.mem_map.mpr ⟨if branchKey r == branchKey b then b else r,
      List.mem_map.mpr ⟨r, hr, rfl⟩, ?_⟩
    by_cases hrb : branchKey r == branchKey b
    · have heq : branchKey r = branchKey b := by simpa using hrb
      rw [if_pos hrb, ← heq, hk]
    · rw [if_neg hrb, hk]
  · rw [if_neg hb]
    simp only [List.map_append, List.mem_append]
    exact Or.inl h

/-- An upsert whose key is already present does not change the key column of
the table. -/
theorem upsertBranch_keys_of_present (t : List BranchRow) (b : BranchRow)
    (h : branchKey b ∈ t.map branchKey) :
    (upsertBranch t b).map branchKey = t.map branchKey := by
  unfold upsertBranch
  have hb : hasBranchKey t (branchKey b) = true :=
    (hasBranchKey_iff t (branchKey b)).mpr h
  rw [if_pos hb, List.map_map]
  apply List.map_congr_left
  intro r _
  show branchKey (if branchKey r == branchKey b then b else r) = branchKey r
  by_cases hrb : branchKey r == branchKey b
  · have heq : branchKey r = branchKey b := by simpa using hrb
    rw [if_pos hrb, heq]
  · rw [if_neg hrb]

theorem saveMany_keys_mono (bs : List BranchRow) :
    ∀ (t : List BranchRow) (k : Int × String),
      k ∈ t.map branchKey → k ∈ (saveMany t bs).map branchKey := by
  induction bs with
  | nil => intro t k h; simpa [saveMany] using h
  | cons b bs ih =>
    intro t k h
    exact ih (upsertBranch t b) k (upsertBranch_keys_mono t b k h)

/-- After `save_many`, the key of every batch element is present. -/
theorem saveMany_key_mem (bs : List BranchRow) :
    ∀ (t : List BranchRow) (b : BranchRow), b ∈ bs →
      branchKey b ∈ (saveMany t bs).map branchKey := by
  induction bs with
  | nil => intro t b h; simp at h
  | cons d bs ih =>
    intro t b h
    rcases List.mem_cons.mp h with h | h
    · subst h
      exact saveMany_keys_mono bs (upsertBranch t b) _
        (upsertBranch_keys_self t b)
    · exact ih (upsertBranch t d) b h

/-- `save_many` of a batch whose keys are all already present keeps the key
column of the table pointwise unchanged (rows are refreshed in place). -/
theorem saveMany_keys_of_present (bs : List BranchRow) :
    ∀ (t : List BranchRow),
      (∀ b ∈ bs, branchKey b ∈ t.map branchKey) →
      (saveMany t bs).map branchKey = t.map branchKey := by
  induction bs with
  | nil => intro t _; rfl
  | cons b bs ih =>
    intro t h
    have h1 : (upsertBranch t b).map branchKey = t.map branchKey :=
      upsertBranch_keys_of_present t b (h b (List.mem_cons_self b bs))
    have h2 : ∀ d ∈ bs, branchKey d ∈ (upsertBranch t b).map branchKey := by
      intro d hd
      rw [h1]
      exact h d (List.mem_cons_of_mem b hd)
    show (saveMany (upsertBranch t b) bs).map branchKey = t.map branchKey
    rw [ih (upsertBranch t b) h2, h1]

/-- `foldl pickLatest` either keeps its accumulator or lands on a list
element. -/
theorem foldl_pickLatest_cases (l : List CommitRow) :
    ∀ (acc : Option CommitRow),
      l.foldl pickLatest acc = acc ∨
        ∃ d ∈ l, l.foldl pickLatest acc = some d := by
  induction l with
  | nil => intro acc; exact Or.inl rfl
  | cons c rest ih =>
    intro acc
    rcases ih (pickLatest acc c) with h | ⟨d, hd, h⟩
    · cases acc with
      | none =>
        refine Or.inr ⟨c, List.mem_cons_self c rest, ?_⟩
        simpa [pickLatest] using h
      | some b =>
        by_cases hlt : b.author_time < c.author_time
        · refine Or.inr ⟨c, List.mem_cons_self c rest, ?_⟩
          simpa [pickLatest, hlt] using h
        · refine Or.inl ?_
          simpa [pickLatest, hlt] using h
    · exact Or.inr ⟨d, List.mem_cons_of_mem c hd, h⟩

theorem mem_insertByCtDesc (c : CommitRow) :
    ∀ (l : List CommitRow) (x : CommitRow),
      x ∈ insertByCtDesc c l ↔ x = c ∨ x ∈ l := by
  intro l
  induction l with
  | nil => intro x; simp [insertByCtDesc]
  | cons d rest ih =>
    intro x
    by_cases hlt : d.committer_time < c.committer_time
    · simp [insertByCtDesc, hlt]
    · simp [insertByCtDesc, hlt, ih x]
      tauto

theorem mem_sortByCtDesc (l : List CommitRow) (x : CommitRow) :
    x ∈ sortByCtDesc l ↔ x ∈ l := by
  induction l with
  | nil => simp [sortByCtDesc]
  | cons c rest ih =>
    show x ∈ insertByCtDesc c (sortByCtDesc rest) ↔ x ∈ c :: rest
    rw [mem_insertByCtDesc]
    simp [ih]

theorem length_insertByCtDesc (c : CommitRow) :
    ∀ (l : List CommitRow),
      (insertByCtDesc c l).length = l.length + 1 := by
  intro l
  induction l with
  | nil => rfl
  | cons d rest ih =>
    by_cases hlt : d.committer_time < c.committer_time
    · simp [insertByCtDesc, hlt]
    · simp [insertByCtDesc, hlt, ih]

theorem length_sortByCtDesc (l : List CommitRow) :
    (sortByCtDesc l).length = l.length := by
  induction l with
  | nil => rfl
  | cons c rest ih =>
    show (insertByCtDesc c (sortByCtDesc rest)).length = rest.length + 1
    rw [length_insertByCtDesc, ih]

theorem indexBranch_ok_table (git : GitState) (fails : FailSpec)
    (maxCommits : Nat) (rid : Int) (now : Int) (table : List CommitRow)
    (refName branchName : String) (t : List CommitRow) (cnt : Nat)
    (h : (indexBranch git fails maxCommits rid now table
        refName branchName).1 = .ok (t, cnt)) :
    t = branchPass (git.walk refName) maxCommits rid now table branchName := by
  unfold indexBranch at h
  by_cases h1 : fails.getLatest branchName
  · simp [h1] at h
  · by_cases h2 : fails.getCommitsCall refName
    · simp [h1, h2] at h
    · by_cases h3 : (getCommits (git.walk refName) maxCommits
        ((getLatestCommit table rid branchName).map (·.oid))).isEmpty
      · simp [h1, h2, h3] at h
        have hnil : getCommits (git.walk refName) maxCommits
            ((getLatestCommit table rid branchName).map (·.oid)) = [] :=
          List.isEmpty_iff.mp h3
        unfold branchPass branchEmission
        rw [hnil]
        exact h.1.symm
      · by_cases h4 : fails.bulkInsertCall branchName
        · simp [h1, h2, h3, h4] at h
        · simp [h1, h2, h3, h4] at h
          unfold branchPass branchEmission
          exact h.1.symm

theorem indexBranch_noFail (git : GitState) (maxCommits : Nat) (rid : Int)
    (now : Int) (table : List CommitRow) (refName branchName : String) :
    (indexBranch git noFail maxCommits rid now table refName branchName).1 =
      .ok (branchPass (git.walk refName) maxCommits rid now table branchName,
        (branchEmission (git.walk refName) maxCommits rid table
          branchName).length) := by
  unfold indexBranch
  by_cases h3 : (getCommits (git.walk refName) maxCommits
      ((getLatestCommit table rid branchName).map (·.oid))).isEmpty
  · have hnil : getCommits (git.walk refName) maxCommits
        ((getLatestCommit table rid branchName).map (·.oid)) = [] :=
      List.isEmpty_iff.mp h3
    simp [noFail, h3]
    unfold branchPass branchEmission
    rw [hnil]
    simp [bulkInsert]
  · simp [noFail, h3]
    unfold branchPass branchEmission
    constructor
    · rfl
    · simp [bulkInsert]

theorem branchLoop_fst (git : GitState) (fails : FailSpec) (maxCommits : Nat)
    (rid : Int) (now : Int) :
    ∀ (bs : List GitBranchRec) (table : List CommitRow) (res : IndexResult),
      (branchLoop git fails maxCommits rid now bs table res).1 =
        branchLoopTbl git fails maxCommits rid now bs table := by
  intro bs
  induction bs with
  | nil => intro table res; rfl
  | cons b rest ih =>
    intro table res
    by_cases ho : strStartsWith b.name "origin/"
    · rcases hib : indexBranch git fails maxCommits rid now table
        ("refs/remotes/" ++ b.name) b.name with ⟨r, evs⟩
      cases r with
      | ok p =>
        rcases p with ⟨t, cnt⟩
        have h1 : (indexBranch git fails maxCommits rid now table
            ("refs/remotes/" ++ b.name) b.name).1 = .ok (t, cnt) := by
          rw [hib]
        simp [branchLoop, branchLoopTbl, ho, hib, h1, ih]
      | error e =>
        have h1 : (indexBranch git fails maxCommits rid now table
            ("refs/remotes/" ++ b.name) b.name).1 = .error e := by
          rw [hib]
        simp [branchLoop, branchLoopTbl, ho, hib, h1, ih]
    · simp [branchLoop, branchLoopTbl, ho, ih]

theorem mem_getCommits_nonMerge (W : List GitCommitRec) (limit : Nat)
    (since : Option String) (g : GitCommitRec)
    (h : g ∈ getCommits W limit since) : g.parent_oids.length ≤ 1 := by
  rw [getCommits_eq] at h
  have := (List.mem_filter.mp h).2
  simpa [nonMerge] using this

theorem mem_getCommits_notSince (W : List GitCommitRec) (limit : Nat)
    (since : Option String) (g : GitCommitRec)
    (h : g ∈ getCommits W limit since) : since ≠ some g.oid := by
  rw [getCommits_eq] at h
  have := mem_takeWhile_pred (notSince since) _ g (List.mem_filter.mp h).1
  simpa [notSince] using this

/-- The per-branch loop only appends rows, and every appended row is the
conversion of a non-merge record fetched for some `origin/`-named branch of
the processed list. -/
theorem branchLoopTbl_decomp (git : GitState) (fails : FailSpec)
    (maxCommits : Nat) (rid : Int) (now : Int) :
    ∀ (bs : List GitBranchRec) (table : List CommitRow),
      ∃ Γ, branchLoopTbl git fails maxCommits rid now bs table = table ++ Γ ∧
        ∀ r ∈ Γ, ∃ b, b ∈ bs ∧ strStartsWith b.name "origin/" = true ∧
          ∃ g, g.parent_oids.length ≤ 1 ∧
            r = toDomainCommit rid b.name now g := by
  intro bs
  induction bs with
  | nil => intro table; exact ⟨[], by simp [branchLoopTbl], by simp⟩
  | cons b rest ih =>
    intro table
    by_cases ho : strStartsWith b.name "origin/"
    · rcases hib : (indexBranch git fails maxCommits rid now table
        ("refs/remotes/" ++ b.name) b.name).1 with e | p
      · rcases ih table with ⟨Γ, hΓ, hmem⟩
        refine ⟨Γ, ?_, ?_⟩
        · simp [branchLoopTbl, ho, hib, hΓ]
        · intro r hr
          rcases hmem r hr with ⟨b2, hb2, hob2, hg⟩
          exact ⟨b2, List.mem_cons_of_mem b hb2, hob2, hg⟩
      · rcases p with ⟨t, cnt⟩
        have ht : t = branchPass (git.walk ("refs/remotes/" ++ b.name))
            maxCommits rid now table b.name :=
          indexBranch_ok_table git fails maxCommits rid now table _ _ t cnt hib
        rcases bulkInsert_decomp
          ((branchEmission (git.walk ("refs/remotes/" ++ b.name)) maxCommits
            rid table b.name).map (toDomainCommit rid b.name now)) table with
          ⟨Δ, hΔ, hΔmem⟩
        rcases ih t with ⟨Γ, hΓ, hΓmem⟩
        refine ⟨Δ ++ Γ, ?_, ?_⟩
        · have : branchLoopTbl git fails maxCommits rid now (b :: rest) table =
              branchLoopTbl git fails maxCommits rid now rest t := by
            simp [branchLoopTbl, ho, hib]
          rw [this, hΓ, ht]
          unfold branchPass
          rw [hΔ, List.append_assoc]
        · intro r hr
          rcases List.mem_append.mp hr with hr | hr
          · have hbatch := hΔmem r hr
            rcases List.mem_map.mp hbatch with ⟨g, hg, hgr⟩
            refine ⟨b, List.mem_cons_self b rest, ho, g, ?_, hgr.symm⟩
            exact mem_getCommits_nonMerge _ _ _ g hg
          · rcases hΓmem r hr with ⟨b2, hb2, hob2, hg⟩
            exact ⟨b2, List.mem_cons_of_mem b hb2, hob2, hg⟩
    · rcases ih table with ⟨Γ, hΓ, hmem⟩
      refine ⟨Γ, ?_, ?_⟩
      · simp [branchLoopTbl, ho, hΓ]
      · intro r hr
        rcases hmem r hr with ⟨b2, hb2, hob2, hg⟩
        exact ⟨b2, List.mem_cons_of_mem b hb2, hob2, hg⟩

theorem branchRows_toDomain_self (rid : Int) (branchName : String) (now : Int)
    (Δ : List CommitRow)
    (h : ∀ d ∈ Δ, ∃ g, d = toDomainCommit rid branchName now g) :
    branchRows Δ rid branchName = Δ := by
  apply List.filter_eq_self.mpr
  intro d hd
  rcases h d hd with ⟨g, hg⟩
  subst hg
  simp [toDomainCommit]

theorem key_transfer (rid : Int) (branchName : String)
    (T1 T2 : List CommitRow)
    (hbr : branchRows T2 rid branchName = branchRows T1 rid branchName)
    (o : String) (hk : (rid, o, branchName) ∈ T1.map commitKey) :
    (rid, o, branchName) ∈ T2.map commitKey := by
  rcases List.mem_map.mp hk with ⟨r, hr, hkr⟩
  have h1 : r.repository_id = rid := by
    have := congrArg Prod.fst hkr
    simpa [commitKey] using this
  have h2 : r.oid = o := by
    have := congrArg (fun p => p.2.1) hkr
    simpa [commitKey] using this
  have h3 : r.branch = branchName := by
    have := congrArg (fun p => p.2.2) hkr
    simpa [commitKey] using this
  have hrf : r ∈ branchRows T1 rid branchName := by
    refine List.mem_filter.mpr ⟨hr, ?_⟩
    simp [h1, h3]
  have hrf2 : r ∈ branchRows T2 rid branchName := by rw [hbr]; exact hrf
  unfold branchRows at hrf2
  have hrT2 : r ∈ T2 := List.mem_of_mem_filter hrf2
  exact List.mem_map.mpr ⟨r, hrT2, hkr⟩

/-- The heart of idempotence: if the rows of `(rid, branchName)` in a later
table `T2` are exactly those left by a `branchPass` over `T`, then a second
`branchPass` over `T2` inserts nothing: its cursor cuts the walk at or before
the previous cut, so every record it fetches was fetched before and its key
is already present. -/
theorem branchPass_second_noop (W : List GitCommitRec) (maxCommits : Nat)
    (rid : Int) (branchName : String) (now now2 : Int)
    (T T2 : List CommitRow)
    (hbr : branchRows T2 rid branchName =
      branchRows (branchPass W maxCommits rid now T branchName) rid
        branchName) :
    branchPass W maxCommits rid now2 T2 branchName = T2 := by
  -- Notation for the first pass.
  set E0 := branchEmission W maxCommits rid T branchName with hE0
  set batch := E0.map (toDomainCommit rid branchName now) with hbatch
  set T1 := branchPass W maxCommits rid now T branchName with hT1
  have hT1eq : T1 = (bulkInsert T batch).1 := rfl
  rcases bulkInsert_decomp batch T with ⟨Δ, hΔ, hΔmem⟩
  -- `branchRows` of the first-pass result: old branch rows, then Δ.
  have hΔrows : branchRows Δ rid branchName = Δ := by
    apply branchRows_toDomain_self rid branchName now
    intro d hd
    rcases List.mem_map.mp (hΔmem d hd) with ⟨g, _, hgd⟩
    exact ⟨g, hgd.symm⟩
  have hT1rows : branchRows T1 rid branchName =
      branchRows T rid branchName ++ Δ := by
    rw [hT1eq, hΔ]
    unfold branchRows
    rw [List.filter_append]
    unfold branchRows at hΔrows
    rw [hΔrows]
  -- The second cursor is the first cursor or comes from Δ.
  have hcursor : getLatestCommit T2 rid branchName =
      getLatestCommit T rid branchName ∨
      ∃ d ∈ Δ, getLatestCommit T2 rid branchName = some d := by
    have : getLatestCommit T2 rid branchName =
        Δ.foldl pickLatest (getLatestCommit T rid branchName) := by
      unfold getLatestCommit
      rw [hbr]
      show List.foldl pickLatest none (branchRows T1 rid branchName) = _
      rw [hT1rows, List.foldl_append]
    rw [this]
    exact foldl_pickLatest_cases Δ (getLatestCommit T rid branchName)
  -- In both cases the second emission is contained in the first.
  have hsub : ∀ x ∈ branchEmission W maxCommits rid T2 branchName, x ∈ E0 := by
    rcases hcursor with hc | ⟨d, hd, hc⟩
    · intro x hx
      unfold branchEmission at hx
      rw [hc] at hx
      exact hx
    · -- the cursor is a row inserted by the first pass: `d = toDomain g0`
      rcases List.mem_map.mp (hΔmem d hd) with ⟨g0, hg0, hgd⟩
      intro x hx
      unfold branchEmission at hx
      rw [hc] at hx
      have hdoid : d.oid = g0.oid := by rw [← hgd]; rfl
      rw [getCommits_eq] at hx
      have hxtw := (List.mem_filter.mp hx).1
      have hxnm := (List.mem_filter.mp hx).2
      -- `g0` survives the first takeWhile, fails the second predicate
      have hg0tw : g0 ∈ (W.take maxCommits).takeWhile
          (notSince ((getLatestCommit T rid branchName).map (·.oid))) := by
        have := hg0
        rw [hE0] at this
        unfold branchEmission at this
        rw [getCommits_eq] at this
        exact (List.mem_filter.mp this).1
      have hqg0 : notSince (some d.oid) g0 = false := by
        simp [notSince, hdoid]
      have hxtw0 := takeWhile_mem_mono
        (notSince ((getLatestCommit T rid branchName).map (·.oid)))
        (notSince (some d.oid)) (W.take maxCommits) g0 hqg0 hg0tw x
        (by simpa using hxtw)
      rw [hE0]
      unfold branchEmission
      rw [getCommits_eq]
      exact List.mem_filter.mpr ⟨hxtw0, hxnm⟩
  -- Hence every key of the second batch is already present in `T2`.
  apply bulkInsert_noop
  intro c hc
  rcases List.mem_map.mp hc with ⟨g, hg, hgc⟩
  have hgE0 := hsub g hg
  have hkey1 : commitKey (toDomainCommit rid branchName now g) ∈
      T1.map commitKey := by
    rw [hT1eq]
    exact bulkInsert_key_mem batch T _ (List.mem_map.mpr ⟨g, hgE0, rfl⟩)
  have hkform : commitKey (toDomainCommit rid branchName now g) =
      (rid, g.oid, branchName) := rfl
  have hkey2 := key_transfer rid branchName T1 T2 hbr
    g.oid (by rw [← hkform]; exact hkey1)
  rw [← hgc]
  have : commitKey (toDomainCommit rid branchName now2 g) =
      (rid, g.oid, branchName) := rfl
  rw [this]
  exact hkey2

theorem branchLoopTbl_noFail_cons (git : GitState) (maxCommits : Nat)
    (rid : Int) (now : Int) (b : GitBranchRec) (rest : List GitBranchRec)
    (table : List CommitRow) :
    branchLoopTbl git noFail maxCommits rid now (b :: rest) table =
      if strStartsWith b.name "origin/" then
        branchLoopTbl git noFail maxCommits rid now rest
          (branchPass (git.walk ("refs/remotes/" ++ b.name)) maxCommits rid
            now table b.name)
      else branchLoopTbl git noFail maxCommits rid now rest table := by
  by_cases ho : strStartsWith b.name "origin/"
  · rw [if_pos ho]
    show (if strStartsWith b.name "origin/" then _ else _) = _
    rw [if_pos ho, indexBranch_noFail]
  · rw [if_neg ho]
    show (if strStartsWith b.name "origin/" then _ else _) = _
    rw [if_neg ho]

theorem branchRows_append_foreign (X Γ : List CommitRow) (rid : Int)
    (branchName : String) (h : ∀ r ∈ Γ, r.branch ≠ branchName) :
    branchRows (X ++ Γ) rid branchName = branchRows X rid branchName := by
  unfold branchRows
  rw [List.filter_append]
  have : Γ.filter (fun c => c.repository_id == rid && c.branch == branchName)
      = [] := by
    apply List.filter_eq_nil_iff.mpr
    intro r hr
    simp [h r hr]
  rw [this, List.append_nil]

/-- A second run of the per-branch loop over the table the first run
produced (possibly extended only outside the processed branch names) changes
nothing, provided branch names are pairwise distinct. -/
theorem branchLoopTbl_second_noop (git : GitState) (maxCommits : Nat)
    (rid : Int) (now1 now2 : Int) :
    ∀ (bs : List GitBranchRec) (T U : List CommitRow),
      (bs.map (·.name)).Nodup →
      (∀ b ∈ bs, strStartsWith b.name "origin/" = true →
        branchRows U rid b.name =
          branchRows (branchLoopTbl git noFail maxCommits rid now1 bs T) rid
            b.name) →
      branchLoopTbl git noFail maxCommits rid now2 bs U = U := by
  intro bs
  induction bs with
  | nil => intro T U _ _; rfl
  | cons b rest ih =>
    intro T U hnd h
    have hnd2 : (rest.map (·.name)).Nodup := by
      rw [List.map_cons] at hnd
      exact (List.nodup_cons.mp hnd).2
    have hbnotin : b.name ∉ rest.map (·.name) := by
      rw [List.map_cons] at hnd
      exact (List.nodup_cons.mp hnd).1
    by_cases ho : strStartsWith b.name "origin/"
    · have hcons1 := branchLoopTbl_noFail_cons git maxCommits rid now1 b rest T
      rw [if_pos ho] at hcons1
      have hcons2 := branchLoopTbl_noFail_cons git maxCommits rid now2 b rest U
      rw [if_pos ho] at hcons2
      set W := git.walk ("refs/remotes/" ++ b.name) with hW
      set T1 := branchPass W maxCommits rid now1 T b.name with hT1
      -- the rows of branch `b` are not touched by the rest of the loop
      rcases branchLoopTbl_decomp git noFail maxCommits rid now1 rest T1 with
        ⟨Γ, hΓ, hΓmem⟩
      have hforeign : ∀ r ∈ Γ, r.branch ≠ b.name := by
        intro r hr
        rcases hΓmem r hr with ⟨b2, hb2, _, g, _, hrg⟩
        have : r.branch = b2.name := by rw [hrg]; rfl
        rw [this]
        intro hcontra
        exact hbnotin (hcontra ▸ List.mem_map.mpr ⟨b2, hb2, rfl⟩)
      have hb := h b (List.mem_cons_self b rest) ho
      rw [hcons1, hΓ] at hb
      rw [branchRows_append_foreign T1 Γ rid b.name hforeign] at hb
      have hnoop := branchPass_second_noop W maxCommits rid b.name now1 now2
        T U hb
      rw [hcons2, hnoop]
      apply ih T1 U hnd2
      intro b2 hb2 ho2
      have := h b2 (List.mem_cons_of_mem b hb2) ho2
      rw [hcons1] at this
      exact this
    · have hcons1 := branchLoopTbl_noFail_cons git maxCommits rid now1 b rest T
      rw [if_neg ho] at hcons1
      have hcons2 := branchLoopTbl_noFail_cons git maxCommits rid now2 b rest U
      rw [if_neg ho] at hcons2
      rw [hcons2]
      apply ih T U hnd2
      intro b2 hb2 ho2
      have := h b2 (List.mem_cons_of_mem b hb2) ho2
      rw [hcons1] at this
      exact this

theorem indexRepositoryW_noFail_store (git : GitState) (maxCommits : Nat)
    (rid : Int) (now : Int) (st : Store) :
    (indexRepositoryW git noFail maxCommits rid now st).1 =
      { commits :=
          branchLoopTbl git noFail maxCommits rid now git.branches st.commits
        branches :=
          if git.branches.isEmpty then st.branches
          else
            saveMany st.branches (git.branches.map (fun b =>
              { repository_id := rid
                name := b.name
                target_oid := b.target_oid
                is_default := b.is_head
                updated_at := now : BranchRow })) } := by
  unfold indexRepositoryW
  by_cases hbe : git.branches = []
  · simp [noFail, hbe, branchLoopTbl, branchLoop]
  · have h1 : ((git.branches.map (fun b =>
        { repository_id := rid
          name := b.name
          target_oid := b.target_oid
          is_default := b.is_head
          updated_at := now : BranchRow })).isEmpty) = false := by
      simp [List.isEmpty_iff, hbe]
    have h2 : git.branches.isEmpty = false := by
      simp [List.isEmpty_iff, hbe]
    simp [noFail, h1, h2, branchLoop_fst]

/-- **C1.** Idempotence of `index_repository`: running the worker twice in a
row against the same git state (no new upstream commits) leaves the stored
commit rows literally unchanged after the second run (hence no duplicate
`(repository_id, oid, branch)` rows and an unchanged commit row count), and
leaves the `(repository_id, name)` key column of the branch table pointwise
unchanged (hence no duplicate branch keys and an unchanged branch row count;
the rows themselves are refreshed in place by the upsert).  Branch names are
assumed pairwise distinct, as git guarantees for ref names. -/
theorem c1_index_repository_idempotent (git : GitState) (maxCommits : Nat)
    (rid : Int) (now1 now2 : Int) (st0 : Store)
    (hnd : (git.branches.map (·.name)).Nodup) :
    (indexRepositoryW git noFail maxCommits rid now2
        (indexRepositoryW git noFail maxCommits rid now1 st0).1).1.commits =
      (indexRepositoryW git noFail maxCommits rid now1 st0).1.commits ∧
    (indexRepositoryW git noFail maxCommits rid now2
        (indexRepositoryW git noFail maxCommits rid now1 st0).1).1.branches.map
        branchKey =
      (indexRepositoryW git noFail maxCommits rid now1
        st0).1.branches.map branchKey ∧
    (indexRepositoryW git noFail maxCommits rid now2
        (indexRepositoryW git noFail maxCommits rid now1 st0).1).1.branches.length =
      (indexRepositoryW git noFail maxCommits rid now1
        st0).1.branches.length := by
  set S1 := (indexRepositoryW git noFail maxCommits rid now1 st0).1 with hS1
  have h1 := indexRepositoryW_noFail_store git maxCommits rid now1 st0
  have h2 := indexRepositoryW_noFail_store git maxCommits rid now2 S1
  have hc1 : S1.commits =
      branchLoopTbl git noFail maxCommits rid now1 git.branches st0.commits := by
    rw [hS1, h1]
  have hc2 : (indexRepositoryW git noFail maxCommits rid now2 S1).1.commits =
      branchLoopTbl git noFail maxCommits rid now2 git.branches S1.commits := by
    rw [h2]
  have hcommits : (indexRepositoryW git noFail maxCommits rid now2
      S1).1.commits = S1.commits := by
    rw [hc2]
    apply branchLoopTbl_second_noop git maxCommits rid now1 now2 git.branches
      st0.commits S1.commits hnd
    intro b _ _
    rw [hc1]
  have hb1 : S1.branches =
      if git.branches.isEmpty then st0.branches
      else saveMany st0.branches (git.branches.map (fun b =>
        { repository_id := rid
          name := b.name
          target_oid := b.target_oid
          is_default := b.is_head
          updated_at := now1 : BranchRow })) := by
    rw [hS1, h1]
  have hb2 : (indexRepositoryW git noFail maxCommits rid now2 S1).1.branches =
      if git.branches.isEmpty then S1.branches
      else saveMany S1.branches (git.branches.map (fun b =>
        { repository_id := rid
          name := b.name
          target_oid := b.target_oid
          is_default := b.is_head
          updated_at := now2 : BranchRow })) := by
    rw [h2]
  have hbranches : (indexRepositoryW git noFail maxCommits rid now2
      S1).1.branches.map branchKey = S1.branches.map branchKey := by
    rw [hb2]
    by_cases hbe : git.branches.isEmpty
    · rw [if_pos hbe]
    · rw [if_neg hbe]
      apply saveMany_keys_of_present
      intro b2 hb2mem
      rcases List.mem_map.mp hb2mem with ⟨b, hb, hb2b⟩
      have hkey2 : branchKey b2 = (rid, b.name) := by rw [← hb2b]; rfl
      have hbe2 : git.branches ≠ [] := by
        intro hcontra
        rw [hcontra] at hbe
        exact hbe rfl
      rw [hb1, if_neg hbe]
      rw [hkey2]
      have := saveMany_key_mem (git.branches.map (fun b =>
        { repository_id := rid
          name := b.name
          target_oid := b.target_oid
          is_default := b.is_head
          updated_at := now1 : BranchRow })) st0.branches
        { repository_id := rid
          name := b.name
          target_oid := b.target_oid
          is_default := b.is_head
          updated_at := now1 : BranchRow }
        (List.mem_map.mpr ⟨b, hb, rfl⟩)
      simpa [branchKey] using this
  refine ⟨hcommits, hbranches, ?_⟩
  have := congrArg List.length hbranches
  simpa using this

theorem c1_witness :
    (c1Git.branches.map (·.name)).Nodup ∧
    ((indexRepositoryW c1Git noFail 100 7 6
        (indexRepositoryW c1Git noFail 100 7 5 c1St0).1).1.commits =
      (indexRepositoryW c1Git noFail 100 7 5 c1St0).1.commits ∧
    (indexRepositoryW c1Git noFail 100 7 6
        (indexRepositoryW c1Git noFail 100 7 5 c1St0).1).1.branches.map
        branchKey =
      (indexRepositoryW c1Git noFail 100 7 5
        c1St0).1.branches.map branchKey ∧
    (indexRepositoryW c1Git noFail 100 7 6
        (indexRepositoryW c1Git noFail 100 7 5
          c1St0).1).1.branches.length =
      (indexRepositoryW c1Git noFail 100 7 5
        c1St0).1.branches.length) := by
  exact ⟨by decide,
    c1_index_repository_idempotent c1Git 100 7 5 6 c1St0 (by decide)⟩

theorem indexRepositoryW_commits_cases (git : GitState) (fails : FailSpec)
    (maxCommits : Nat) (rid : Int) (now : Int) (st : Store) :
    (indexRepositoryW git fails maxCommits rid now st).1.commits =
      st.commits ∨
    (indexRepositoryW git fails maxCommits rid now st).1.commits =
      branchLoopTbl git fails maxCommits rid now git.branches st.commits := by
  unfold indexRepositoryW
  by_cases h1 : fails.listBranches
  · simp [h1]
  · by_cases hbe : ((git.branches.map (fun b =>
      { repository_id := rid
        name := b.name
        target_oid := b.target_oid
        is_default := b.is_head
        updated_at := now : BranchRow })).isEmpty)
    · simp [h1, hbe, branchLoop_fst]
    · by_cases h2 : fails.saveMany
      · simp [h1, hbe, h2]
      · simp [h1, hbe, h2, branchLoop_fst]

/-- **C2.** Merge exclusion: `get_commits` never emits a record with more
than one parent, and consequently every commit row the indexing pipeline adds
to the store is the conversion of a record with at most one parent — a merge
commit never enters the stored commit set. -/
theorem c2_merge_exclusion :
    (∀ (walk : List GitCommitRec) (limit : Nat) (since : Option String)
        (g : GitCommitRec), g ∈ getCommits walk limit since →
        g.parent_oids.length ≤ 1) ∧
    (∀ (git : GitState) (fails : FailSpec) (maxCommits : Nat)
        (rid now : Int) (st : Store) (r : CommitRow),
        r ∈ (indexRepositoryW git fails maxCommits rid now st).1.commits →
        r ∈ st.commits ∨
          ∃ bname g, g.parent_oids.length ≤ 1 ∧
            r = toDomainCommit rid bname now g) := by
  constructor
  · intro walk limit since g hg
    exact mem_getCommits_nonMerge walk limit since g hg
  · intro git fails maxCommits rid now st r hr
    rcases indexRepositoryW_commits_cases git fails maxCommits rid now st with
      h | h
    · rw [h] at hr
      exact Or.inl hr
    · rw [h] at hr
      rcases branchLoopTbl_decomp git fails maxCommits rid now git.branches
        st.commits with ⟨Γ, hΓ, hΓmem⟩
      rw [hΓ] at hr
      rcases List.mem_append.mp hr with hr | hr
      · exact Or.inl hr
      · rcases hΓmem r hr with ⟨b, _, _, g, hgle, hrg⟩
        exact Or.inr ⟨b.name, g, hgle, hrg⟩

theorem c2_witness :
    (c2Walk.get? 1).isSome ∧
    ((c2Walk.get ⟨1, by decide⟩) ∈ getCommits c2Walk 5 none ∧
      (c2Walk.get ⟨1, by decide⟩).parent_oids.length ≤ 1) := by
  refine ⟨by decide, by decide, ?_⟩
  exact c2_merge_exclusion.1 c2Walk 5 none _ (by decide)

theorem takeWhile_length_le {α} (p : α → Bool) :
    ∀ (l : List α), (l.takeWhile p).length ≤ l.length := by
  intro l
  induction l with
  | nil => simp [List.takeWhile]
  | cons x xs ih =>
    by_cases hx : p x
    · simp only [List.takeWhile, hx, List.length_cons]
      exact Nat.succ_le_succ ih
    · simp only [List.takeWhile, hx]
      simp

/-- **C4 counterexample.** With walk `[merge, x, y]` and `limit = 1` there
are two eligible (non-merge, pre-cursor) commits, yet zero records are
returned: the merge commit consumed the single limit slot.  This refutes
"whenever more than limit eligible commits exist, exactly limit records are
returned". -/
theorem c4_counterexample :
    1 < (c4Walk.filter nonMerge).length ∧
    (getCommits c4Walk 1 none).length ≠ 1 := by decide

/-- **C4 (amended).** `get_commits` returns exactly the non-merge commits
among the first `limit` *walked* commits cut off (exclusively) at
`since_oid`; the `since_oid` commit itself is never returned and at most
`limit` records are returned — but merge commits count against `limit`, so
fewer than `limit` records may be returned even when more than `limit`
eligible commits exist. -/
theorem c4_get_commits_stop_conditions (walk : List GitCommitRec)
    (limit : Nat) (since : Option String) :
    getCommits walk limit since =
      ((walk.take limit).takeWhile (notSince since)).filter nonMerge ∧
    (getCommits walk limit since).length ≤ limit ∧
    ∀ c ∈ getCommits walk limit since, since ≠ some c.oid := by
  refine ⟨getCommits_eq walk limit since, ?_, ?_⟩
  · rw [getCommits_eq]
    calc (((walk.take limit).takeWhile (notSince since)).filter
        nonMerge).length
        ≤ ((walk.take limit).takeWhile (notSince since)).length :=
          List.length_filter_le _ _
      _ ≤ (walk.take limit).length := takeWhile_length_le _ _
      _ ≤ limit := by rw [List.length_take]; exact Nat.min_le_left _ _
  · intro c hc
    exact mem_getCommits_notSince walk limit since c hc

theorem c4_witness :
    (getCommits c4Walk 2 (some "y") =
      ((c4Walk.take 2).takeWhile (notSince (some "y"))).filter nonMerge) ∧
    (getCommits c4Walk 2 (some "y")).length ≤ 2 ∧
    (some "y" : Option String) ≠
      some (c4Walk.get ⟨1, by decide⟩).oid := by
  refine ⟨(c4_get_commits_stop_conditions c4Walk 2 (some "y")).1,
    (c4_get_commits_stop_conditions c4Walk 2 (some "y")).2.1, ?_⟩
  exact (c4_get_commits_stop_conditions c4Walk 2 (some "y")).2.2 _ (by decide)

/-- **C9.** `bulk_insert` returns the length of its input batch, not the
number of rows actually inserted; re-indexing already-stored commits
therefore reports `commits_indexed` larger than the number of new rows.  The
concrete part runs a worker pass whose single fetched commit is already
stored: the store's commit table is unchanged, yet `commits_indexed = 1`. -/
theorem c9_bulk_insert_counts_batch :
    (∀ (t cs : List CommitRow), (bulkInsert t cs).2 = cs.length) ∧
    (indexRepositoryW c9Git noFail 10 1 50 c9St).2.1 =
      .ok { commits_indexed := 1, branches_indexed := 1
            branches_failed := 0 } ∧
    (indexRepositoryW c9Git noFail 10 1 50 c9St).1.commits = c9St.commits := by
  refine ⟨fun t cs => rfl, ?_, ?_⟩
  · rfl
  · decide

/-- The scheduled per-repository task never returns `Ok(false)`: the only
success value `IndexerScheduler::index_repository` produces is `true`. -/
theorem runRepoTask_ne_ok_false (env : RepoTaskEnv) :
    runRepoTask env ≠ TaskOutcome.ok false := by
  unfold runRepoTask schedIndexRepository
  by_cases hp : env.panics
  · simp [hp]
  · simp only [hp, Bool.false_eq_true, if_false]
    by_cases h1 : env.findByPathFails
    · simp [h1]
    · by_cases h2 : env.saveRepoFails
      · simp [h1, h2]
      · simp only [h1, h2, Bool.false_eq_true, if_false]
        rcases hw : (indexRepositoryW env.git env.fails env.maxCommits
          env.repoId env.now env.st).2.1 with e | r
        · cases env.fetch <;> simp [hw]
        · cases env.fetch <;> simp [hw]

theorem aggregateOutcomes_sum (outs : List TaskOutcome) :
    ∀ (s : IndexStats),
      (∀ o ∈ outs, o ≠ TaskOutcome.ok false) →
      (aggregateOutcomes outs s).repos_synced +
          (aggregateOutcomes outs s).repos_failed =
        s.repos_synced + s.repos_failed + outs.length ∧
      (aggregateOutcomes outs s).repos_discovered = s.repos_discovered := by
  induction outs with
  | nil => intro s _; exact ⟨rfl, rfl⟩
  | cons o rest ih =>
    intro s h
    have hrest : ∀ x ∈ rest, x ≠ TaskOutcome.ok false := fun x hx =>
      h x (List.mem_cons_of_mem o hx)
    cases o with
    | ok b =>
      cases b with
      | false => exact absurd rfl (h _ (List.mem_cons_self _ _))
      | true =>
        have hstep : aggregateOutcomes (TaskOutcome.ok true :: rest) s =
            aggregateOutcomes rest
              { s with repos_synced := s.repos_synced + 1 } := rfl
        rw [hstep]
        have := ih { s with repos_synced := s.repos_synced + 1 } hrest
        refine ⟨?_, this.2⟩
        rw [this.1]
        simp [List.length_cons]
        omega
    | errored =>
      have hstep : aggregateOutcomes (TaskOutcome.errored :: rest) s =
          aggregateOutcomes rest
            { s with repos_failed := s.repos_failed + 1 } := rfl
      rw [hstep]
      have := ih { s with repos_failed := s.repos_failed + 1 } hrest
      refine ⟨?_, this.2⟩
      rw [this.1]
      simp [List.length_cons]
      omega
    | panicked =>
      have hstep : aggregateOutcomes (TaskOutcome.panicked :: rest) s =
          aggregateOutcomes rest
            { s with repos_failed := s.repos_failed + 1 } := rfl
      rw [hstep]
      have := ih { s with repos_failed := s.repos_failed + 1 } hrest
      refine ⟨?_, this.2⟩
      rw [this.1]
      simp [List.length_cons]
      omega

/-- **C6.** Fault isolation of a cycle: whatever each repository's task
environment does — its fetch failing or timing out, its store calls failing,
the task body panicking — every discovered repository reaches exactly one
terminal classification at the join point, and the cycle's counters satisfy
`repos_synced + repos_failed = repos_discovered = number discovered`. -/
theorem c6_cycle_counters (envs : List RepoTaskEnv) :
    (runIndexCycle envs).repos_synced + (runIndexCycle envs).repos_failed =
      (runIndexCycle envs).repos_discovered ∧
    (runIndexCycle envs).repos_discovered = envs.length := by
  have h : ∀ o ∈ envs.map runRepoTask, o ≠ TaskOutcome.ok false := by
    intro o ho
    rcases List.mem_map.mp ho with ⟨env, _, hoe⟩
    rw [← hoe]
    exact runRepoTask_ne_ok_false env
  have := aggregateOutcomes_sum (envs.map runRepoTask)
    { repos_discovered := envs.length, repos_synced := 0, repos_failed := 0 } h
  unfold runIndexCycle
  refine ⟨?_, this.2⟩
  rw [this.1, this.2]
  simp

theorem branchLoop_events_no_save (git : GitState) (fails : FailSpec)
    (maxCommits : Nat) (rid : Int) (now : Int) :
    ∀ (bs : List GitBranchRec) (table : List CommitRow) (res : IndexResult),
      StoreEvent.saveManyEv ∉
        (branchLoop git fails maxCommits rid now bs table res).2.2 := by
  intro bs
  induction bs with
  | nil => intro table res; simp [branchLoop]
  | cons b rest ih =>
    intro table res
    by_cases ho : strStartsWith b.name "origin/"
    · rcases hib : indexBranch git fails maxCommits rid now table
        ("refs/remotes/" ++ b.name) b.name with ⟨r, evs⟩
      have hevs : evs = [] ∨ ∃ bn, evs = [StoreEvent.bulkInsertEv bn] := by
        unfold indexBranch at hib
        by_cases h1 : fails.getLatest b.name
        · simp [h1] at hib
          exact Or.inl hib.2
        · by_cases h2 : fails.getCommitsCall ("refs/remotes/" ++ b.name)
          · simp [h1, h2] at hib
            exact Or.inl hib.2
          · by_cases h3 : (getCommits (git.walk ("refs/remotes/" ++ b.name))
              maxCommits
              ((getLatestCommit table rid b.name).map (·.oid))).isEmpty
            · simp [h1, h2, h3] at hib
              exact Or.inl hib.2
            · by_cases h4 : fails.bulkInsertCall b.name
              · simp [h1, h2, h3, h4] at hib
                exact Or.inr ⟨b.name, hib.2.symm⟩
              · simp [h1, h2, h3, h4] at hib
                exact Or.inr ⟨b.name, hib.2.symm⟩
      cases r with
      | ok p =>
        rcases p with ⟨t, cnt⟩
        have : (branchLoop git fails maxCommits rid now (b :: rest) table
            res).2.2 = evs ++ (branchLoop git fails maxCommits rid now rest t
              { res with
                commits_indexed := res.commits_indexed + cnt
                branches_indexed := res.branches_indexed + 1 }).2.2 := by
          simp [branchLoop, ho, hib]
        rw [this]
        intro hmem
        rcases List.mem_append.mp hmem with hmem | hmem
        · rcases hevs with he | ⟨bn, he⟩ <;> rw [he] at hmem <;> simp at hmem
        · exact ih t _ hmem
      | error e =>
        have : (branchLoop git fails maxCommits rid now (b :: rest) table
            res).2.2 = evs ++ (branchLoop git fails maxCommits rid now rest
              table
              { res with branches_failed := res.branches_failed + 1 }).2.2 := by
          simp [branchLoop, ho, hib]
        rw [this]
        intro hmem
        rcases List.mem_append.mp hmem with hmem | hmem
        · rcases hevs with he | ⟨bn, he⟩ <;> rw [he] at hmem <;> simp at hmem
        · exact ih table _ hmem
    · have : (branchLoop git fails maxCommits rid now (b :: rest) table
          res).2.2 = (branchLoop git fails maxCommits rid now rest table
            res).2.2 := by
        simp [branchLoop, ho]
      rw [this]
      exact ih table res

/-- **C8.** In any repository pass, every `bulk_insert` store event is
strictly preceded by the `save_many` branch-persistence event: branch
persistence always happens before any commit persistence, and when no branch
is content-indexed no commit persistence happens at all. -/
theorem c8_save_many_before_bulk_insert (git : GitState) (fails : FailSpec)
    (maxCommits : Nat) (rid : Int) (now : Int) (st : Store)
    (pre post : List StoreEvent) (b : String)
    (h : (indexRepositoryW git fails maxCommits rid now st).2.2 =
      pre ++ StoreEvent.bulkInsertEv b :: post) :
    StoreEvent.saveManyEv ∈ pre := by
  unfold indexRepositoryW at h
  by_cases h1 : fails.listBranches
  · simp [h1] at h
  · by_cases hbe : ((git.branches.map (fun bb =>
      { repository_id := rid
        name := bb.name
        target_oid := bb.target_oid
        is_default := bb.is_head
        updated_at := now : BranchRow })).isEmpty)
    · have hbs : git.branches = [] :=
        List.map_eq_nil_iff.mp (List.isEmpty_iff.mp hbe)
      simp [h1, hbe, hbs, branchLoop] at h
    · by_cases h2 : fails.saveMany
      · simp [h1, hbe, h2] at h
      · simp only [h1, hbe, h2, Bool.false_eq_true, if_false, if_true] at h
        cases pre with
        | nil =>
          simp at h
        | cons p pre2 =>
          have hp : p = StoreEvent.saveManyEv := by
            have := congrArg (fun l => l.head?) h
            simpa using this.symm
          rw [hp]
          exact List.mem_cons_self _ _

theorem c8_witness :
    ((indexRepositoryW c8Git noFail 10 2 9 c8St).2.2 =
      [StoreEvent.saveManyEv] ++
        StoreEvent.bulkInsertEv "origin/main" :: []) ∧
    StoreEvent.saveManyEv ∈ [StoreEvent.saveManyEv] := by
  refine ⟨by decide, ?_⟩
  exact c8_save_many_before_bulk_insert c8Git noFail 10 2 9 c8St
    [StoreEvent.saveManyEv] [] "origin/main" (by decide)

theorem branchLoop_branch_accounting (git : GitState) (fails : FailSpec)
    (maxCommits : Nat) (rid : Int) (now : Int) :
    ∀ (bs : List GitBranchRec) (table : List CommitRow) (res : IndexResult),
      (branchLoop git fails maxCommits rid now bs table
          res).2.1.branches_indexed +
        (branchLoop git fails maxCommits rid now bs table
          res).2.1.branches_failed =
      res.branches_indexed + res.branches_failed +
        (bs.filter (fun b => strStartsWith b.name "origin/")).length := by
  intro bs
  induction bs with
  | nil => intro table res; simp [branchLoop]
  | cons b rest ih =>
    intro table res
    by_cases ho : strStartsWith b.name "origin/"
    · rcases hib : indexBranch git fails maxCommits rid now table
        ("refs/remotes/" ++ b.name) b.name with ⟨r, evs⟩
      cases r with
      | ok p =>
        rcases p with ⟨t, cnt⟩
        have hstep : (branchLoop git fails maxCommits rid now (b :: rest)
            table res) = ((branchLoop git fails maxCommits rid now rest t
              { res with
                commits_indexed := res.commits_indexed + cnt
                branches_indexed := res.branches_indexed + 1 }).1,
              (branchLoop git fails maxCommits rid now rest t
              { res with
                commits_indexed := res.commits_indexed + cnt
                branches_indexed := res.branches_indexed + 1 }).2.1,
              evs ++ (branchLoop git fails maxCommits rid now rest t
              { res with
                commits_indexed := res.commits_indexed + cnt
                branches_indexed := res.branches_indexed + 1 }).2.2) := by
          simp [branchLoop, ho, hib]
        rw [hstep]
        have := ih t { res with
          commits_indexed := res.commits_indexed + cnt
          branches_indexed := res.branches_indexed + 1 }
        simp only at this ⊢
        rw [this]
        simp [List.filter_cons, ho]
        omega
      | error e =>
        have hstep : (branchLoop git fails maxCommits rid now (b :: rest)
            table res) = ((branchLoop git fails maxCommits rid now rest table
              { res with branches_failed := res.branches_failed + 1 }).1,
              (branchLoop git fails maxCommits rid now rest table
              { res with branches_failed := res.branches_failed + 1 }).2.1,
              evs ++ (branchLoop git fails maxCommits rid now rest table
              { res with branches_failed := res.branches_failed + 1 }).2.2) := by
          simp [branchLoop, ho, hib]
        rw [hstep]
        have := ih table { res with
          branches_failed := res.branches_failed + 1 }
        simp only at this ⊢
        rw [this]
        simp [List.filter_cons, ho]
        omega
    · have hstep : (branchLoop git fails maxCommits rid now (b :: rest)
          table res) =
          branchLoop git fails maxCommits rid now rest table res := by
        simp [branchLoop, ho]
      rw [hstep, ih table res]
      simp [List.filter_cons, ho]

/-- **C7 (amended).** A `StoreError` from `bulk_insert` while indexing one
branch is caught inside the worker's per-branch loop: the branch is counted
in `branches_failed` and the pass continues with the repository's remaining
branches — every `origin/` branch still reaches a terminal per-branch
outcome, so `branches_indexed + branches_failed` equals the number of
`origin/` branches no matter which (and how many) `bulk_insert` calls fail.
The scheduler's cycle likewise continues, as the worker still returns `Ok`. -/
theorem c7_store_error_caught_per_branch (git : GitState) (fails : FailSpec)
    (maxCommits : Nat) (rid : Int) (now : Int) (st : Store)
    (h1 : fails.listBranches = false) (h2 : fails.saveMany = false) :
    ∃ res, (indexRepositoryW git fails maxCommits rid now st).2.1 =
        .ok res ∧
      res.branches_indexed + res.branches_failed =
        (git.branches.filter
          (fun b => strStartsWith b.name "origin/")).length := by
  unfold indexRepositoryW
  rw [h1]
  by_cases hbe : ((git.branches.map (fun bb =>
    { repository_id := rid
      name := bb.name
      target_oid := bb.target_oid
      is_default := bb.is_head
      updated_at := now : BranchRow })).isEmpty)
  · simp only [Bool.false_eq_true, if_false, hbe, if_true]
    refine ⟨(branchLoop git fails maxCommits rid now git.branches st.commits
      IndexResult.zero).2.1, rfl, ?_⟩
    have := branchLoop_branch_accounting git fails maxCommits rid now
      git.branches st.commits IndexResult.zero
    rw [this]
    simp [IndexResult.zero]
  · simp only [Bool.false_eq_true, if_false, hbe, h2]
    refine ⟨(branchLoop git fails maxCommits rid now git.branches st.commits
      IndexResult.zero).2.1, rfl, ?_⟩
    have := branchLoop_branch_accounting git fails maxCommits rid now
      git.branches st.commits IndexResult.zero
    rw [this]
    simp [IndexResult.zero]

/-- **C7 counterexample.** The `bulk_insert` of branch `origin/a` returns a
`StoreError`, yet the repository's pass is not aborted: branch `origin/b` is
still indexed in the same pass (its commit is stored and
`branches_indexed = 1`), refuting "no further branches of that repository
are indexed in that pass". -/
theorem c7_counterexample :
    (indexBranch c7Git c7Fails 10 3 0 c7St.commits "refs/remotes/origin/a"
        "origin/a").1 = .error .store ∧
    (indexRepositoryW c7Git c7Fails 10 3 0 c7St).2.1 =
      .ok { commits_indexed := 1, branches_indexed := 1
            branches_failed := 1 } ∧
    hasCommitKey (indexRepositoryW c7Git c7Fails 10 3 0 c7St).1.commits
      (3, "b1", "origin/b") = true := by
  refine ⟨rfl, rfl, by decide⟩

theorem c7_witness :
    (c7Fails.listBranches = false ∧ c7Fails.saveMany = false) ∧
    (∃ res, (indexRepositoryW c7Git c7Fails 10 3 0 c7St).2.1 = .ok res ∧
      res.branches_indexed + res.branches_failed =
        (c7Git.branches.filter
          (fun b => strStartsWith b.name "origin/")).length) := by
  exact ⟨⟨rfl, rfl⟩,
    c7_store_error_caught_per_branch c7Git c7Fails 10 3 0 c7St rfl rfl⟩

theorem indexRepositoryW_store_of_flags (git : GitState) (fails : FailSpec)
    (maxCommits : Nat) (rid : Int) (now : Int) (st : Store)
    (h1 : fails.listBranches = false) (h2 : fails.saveMany = false) :
    (indexRepositoryW git fails maxCommits rid now st).1 =
      { commits :=
          branchLoopTbl git fails maxCommits rid now git.branches st.commits
        branches :=
          if git.branches.isEmpty then st.branches
          else
            saveMany st.branches (git.branches.map (fun b =>
              { repository_id := rid
                name := b.name
                target_oid := b.target_oid
                is_default := b.is_head
                updated_at := now : BranchRow })) } := by
  unfold indexRepositoryW
  by_cases hbe : git.branches = []
  · simp [h1, h2, hbe, branchLoopTbl, branchLoop]
  · have hm : ((git.branches.map (fun b =>
        { repository_id := rid
          name := b.name
          target_oid := b.target_oid
          is_default := b.is_head
          updated_at := now : BranchRow })).isEmpty) = false := by
      simp [List.isEmpty_iff, hbe]
    have hbf : git.branches.isEmpty = false := by
      simp [List.isEmpty_iff, hbe]
    simp [h1, h2, hm, hbf, branchLoop_fst]

/-- **C10.** The remote-tracking selection is the fixed literal prefix
`origin/`: when branch listing and branch persistence succeed, every listed
branch is persisted to the branch store (its `(repository_id, name)` key is
present afterwards), while the commit store only ever gains rows whose
`branch` column starts with `origin/` — a branch named outside the `origin/`
namespace never contributes commit rows, whatever the configuration
(`maxCommits`) is. -/
theorem c10_origin_literal_gates_commit_indexing (git : GitState)
    (fails : FailSpec) (maxCommits : Nat) (rid : Int) (now : Int) (st : Store)
    (h1 : fails.listBranches = false) (h2 : fails.saveMany = false) :
    (∀ b ∈ git.branches,
      (rid, b.name) ∈
        (indexRepositoryW git fails maxCommits rid now
          st).1.branches.map branchKey) ∧
    (∀ r ∈ (indexRepositoryW git fails maxCommits rid now st).1.commits,
      r ∈ st.commits ∨ strStartsWith r.branch "origin/" = true) := by
  have hst := indexRepositoryW_store_of_flags git fails maxCommits rid now st
    h1 h2
  constructor
  · intro b hb
    have hbr : (indexRepositoryW git fails maxCommits rid now st).1.branches =
        if git.branches.isEmpty then st.branches
        else
          saveMany st.branches (git.branches.map (fun b =>
            { repository_id := rid
              name := b.name
              target_oid := b.target_oid
              is_default := b.is_head
              updated_at := now : BranchRow })) := by
      rw [hst]
    rw [hbr]
    have hne : git.branches ≠ [] := by
      intro hc
      rw [hc] at hb
      simp at hb
    have hbe : git.branches.isEmpty = false := by
      simp [List.isEmpty_iff, hne]
    rw [hbe]
    simp only [Bool.false_eq_true, if_false]
    have := saveMany_key_mem (git.branches.map (fun b =>
      { repository_id := rid
        name := b.name
        target_oid := b.target_oid
        is_default := b.is_head
        updated_at := now : BranchRow })) st.branches
      { repository_id := rid
        name := b.name
        target_oid := b.target_oid
        is_default := b.is_head
        updated_at := now : BranchRow }
      (List.mem_map.mpr ⟨b, hb, rfl⟩)
    simpa [branchKey] using this
  · intro r hr
    have hcm : (indexRepositoryW git fails maxCommits rid now st).1.commits =
        branchLoopTbl git fails maxCommits rid now git.branches st.commits :=
      by rw [hst]
    rw [hcm] at hr
    rcases branchLoopTbl_decomp git fails maxCommits rid now git.branches
      st.commits with ⟨Γ, hΓ, hΓmem⟩
    rw [hΓ] at hr
    rcases List.mem_append.mp hr with hr | hr
    · exact Or.inl hr
    · rcases hΓmem r hr with ⟨b, _, hob, g, _, hrg⟩
      refine Or.inr ?_
      have : r.branch = b.name := by rw [hrg]; rfl
      rw [this]
      exact hob

theorem c10_witness :
    (noFail.listBranches = false ∧ noFail.saveMany = false) ∧
    ((∀ b ∈ c10Git.branches,
      (4, b.name) ∈
        (indexRepositoryW c10Git noFail 10 4 0
          c10St).1.branches.map branchKey) ∧
    (∀ r ∈ (indexRepositoryW c10Git noFail 10 4 0 c10St).1.commits,
      r ∈ c10St.commits ∨ strStartsWith r.branch "origin/" = true)) := by
  exact ⟨⟨rfl, rfl⟩,
    c10_origin_literal_gates_commit_indexing c10Git noFail 10 4 0 c10St rfl
      rfl⟩

/-- **C3.** `find_diff_commits` implements the author-name/summary
anti-join: provided `limit` does not truncate the qualifying rows, a stored
commit appears in the result exactly when it belongs to the queried
repository and old branch and no stored commit of the new branch in the same
repository shares its author name and summary — in particular a commit whose
author name and summary also occur on the new branch (with any oid) is
always excluded. -/
theorem c3_find_diff_commits_anti_join (t : List CommitRow) (rid : Int)
    (oldBranch newBranch : String) (limit : Nat)
    (h : ((branchRows t rid oldBranch).filter
      (fun c => !(diffMatch t newBranch c))).length ≤ limit) :
    ∀ c, c ∈ findDiffCommits t rid oldBranch newBranch limit ↔
      (c ∈ t ∧ c.repository_id = rid ∧ c.branch = oldBranch ∧
        ∀ n ∈ t, ¬(n.repository_id = c.repository_id ∧
          n.branch = newBranch ∧ n.author_name = c.author_name ∧
          n.summary = c.summary)) := by
  intro c
  unfold findDiffCommits
  have hlen : (sortByCtDesc ((branchRows t rid oldBranch).filter
      (fun c => !(diffMatch t newBranch c)))).length ≤ limit := by
    rw [length_sortByCtDesc]
    exact h
  rw [List.take_of_length_le hlen, mem_sortByCtDesc, List.mem_filter]
  unfold branchRows
  rw [List.mem_filter]
  simp only [Bool.and_eq_true, beq_iff_eq, Bool.not_eq_true', diffMatch,
    List.any_eq_false]
  constructor
  · rintro ⟨⟨hct, hrid, hbr⟩, hm⟩
    refine ⟨hct, hrid, hbr, ?_⟩
    intro n hn hcontra
    rcases hcontra with ⟨hx1, hx2, hx3, hx4⟩
    exact hm n hn ⟨⟨⟨hx1, hx2⟩, hx3⟩, hx4⟩
  · rintro ⟨hct, hrid, hbr, hm⟩
    refine ⟨⟨hct, hrid, hbr⟩, ?_⟩
    intro n hn hcontra
    rcases hcontra with ⟨⟨⟨hx1, hx2⟩, hx3⟩, hx4⟩
    exact hm n hn ⟨hx1, hx2, hx3, hx4⟩

theorem c3_witness :
    (((branchRows c3Table 1 "A").filter
      (fun c => !(diffMatch c3Table "B" c))).length ≤ 5) ∧
    (c3Row "o1" "A" "x" "s" 10 ∉ findDiffCommits c3Table 1 "A" "B" 5) ∧
    (c3Row "o1" "A" "x" "s" 10 ∈ findDiffCommits c3Table 1 "A" "B" 5 ↔
      (c3Row "o1" "A" "x" "s" 10 ∈ c3Table ∧
        (c3Row "o1" "A" "x" "s" 10).repository_id = 1 ∧
        (c3Row "o1" "A" "x" "s" 10).branch = "A" ∧
        ∀ n ∈ c3Table,
          ¬(n.repository_id = (c3Row "o1" "A" "x" "s" 10).repository_id ∧
            n.branch = "B" ∧
            n.author_name = (c3Row "o1" "A" "x" "s" 10).author_name ∧
            n.summary = (c3Row "o1" "A" "x" "s" 10).summary))) := by
  refine ⟨by decide, by decide, ?_⟩
  exact c3_find_diff_commits_anti_join c3Table 1 "A" "B" 5 (by decide)
    (c3Row "o1" "A" "x" "s" 10)

theorem ancestorIn_indexOf_lt (walk : List GitCommitRec)
    (hPA : ∀ c ∈ walk, ∀ d ∈ walk, d.oid ∈ c.parent_oids →
      walk.indexOf c < walk.indexOf d) :
    ∀ c d, AncestorIn walk c d → walk.indexOf c < walk.indexOf d := by
  intro c d h
  induction h with
  | parent hc hd hp => exact hPA _ hc _ hd hp
  | trans h1 h2 ih1 ih2 => exact lt_trans ih1 ih2

/-- In a duplicate-free list, every element surviving `takeWhile p` sits
strictly before any element at which `p` fails. -/
theorem mem_takeWhile_indexOf_lt {α} [DecidableEq α] (p : α → Bool) :
    ∀ (l : List α) (a : α), l.Nodup → a ∈ l → p a = false →
      ∀ x ∈ l.takeWhile p, l.indexOf x < l.indexOf a := by
  intro l
  induction l with
  | nil => intro a _ ha; simp at ha
  | cons c rest ih =>
    intro a hnd ha hpa x hx
    by_cases hpc : p c
    · have hca : c ≠ a := by
        intro he
        rw [he, hpa] at hpc
        exact Bool.false_ne_true hpc
      have ha2 : a ∈ rest := by
        rcases List.mem_cons.mp ha with he | hm
        · exact absurd he.symm hca
        · exact hm
      have hia : (c :: rest).indexOf a = rest.indexOf a + 1 :=
        List.indexOf_cons_ne rest hca
      simp only [List.takeWhile, hpc] at hx
      rcases List.mem_cons.mp hx with he | hm
      · rw [he, hia, List.indexOf_cons_self]
        exact Nat.succ_pos _
      · have hxrest : x ∈ rest := mem_of_mem_takeWhile p rest x hm
        have hxc : c ≠ x := by
          intro he
          rw [← he] at hxrest
          exact (List.nodup_cons.mp hnd).1 hxrest
        have hix : (c :: rest).indexOf x = rest.indexOf x + 1 :=
          List.indexOf_cons_ne rest hxc
        rw [hix, hia]
        exact Nat.succ_lt_succ
          (ih a (List.nodup_cons.mp hnd).2 ha2 hpa x hm)
    · simp only [List.takeWhile, hpc] at hx
      simp at hx

/-- **C5.** Cursoring correctness: a `get_commits` call bounded by
`since_oid = C` (C a walked commit, walked oids duplicate-free, parents
appearing after children as the revwalk guarantees) returns neither C itself
nor any walk-ancestor of C — in particular no ancestor already stored. -/
theorem c5_cursor_excludes_ancestors (walk : List GitCommitRec) (limit : Nat)
    (C : GitCommitRec)
    (hnd : (walk.map (·.oid)).Nodup)
    (hC : C ∈ walk)
    (hPA : ∀ c ∈ walk, ∀ d ∈ walk, d.oid ∈ c.parent_oids →
      walk.indexOf c < walk.indexOf d) :
    C ∉ getCommits walk limit (some C.oid) ∧
    ∀ d, AncestorIn walk C d → d ∉ getCommits walk limit (some C.oid) := by
  constructor
  · intro h
    have := mem_getCommits_notSince walk limit (some C.oid) C h
    exact this rfl
  · intro d hanc hd
    have hidx := ancestorIn_indexOf_lt walk hPA C d hanc
    rw [getCommits_eq] at hd
    have htw := (List.mem_filter.mp hd).1
    have htw2 : d ∈ walk.takeWhile (notSince (some C.oid)) :=
      mem_takeWhile_take (notSince (some C.oid)) limit walk d htw
    have hndl : walk.Nodup := List.Nodup.of_map _ hnd
    have hpC : notSince (some C.oid) C = false := by simp [notSince]
    have := mem_takeWhile_indexOf_lt (notSince (some C.oid)) walk C hndl hC
      hpC d htw2
    omega

theorem c5_witness :
    ((c5Walk.map (·.oid)).Nodup ∧
      (c5Walk.get ⟨0, by decide⟩) ∈ c5Walk ∧
      (∀ c ∈ c5Walk, ∀ d ∈ c5Walk, d.oid ∈ c.parent_oids →
        c5Walk.indexOf c < c5Walk.indexOf d)) ∧
    ((c5Walk.get ⟨0, by decide⟩) ∉
      getCommits c5Walk 10 (some (c5Walk.get ⟨0, by decide⟩).oid) ∧
    (c5Walk.get ⟨1, by decide⟩) ∉
      getCommits c5Walk 10 (some (c5Walk.get ⟨0, by decide⟩).oid)) := by
  refine ⟨⟨by decide, by decide, by decide⟩, ?_, ?_⟩
  · exact (c5_cursor_excludes_ancestors c5Walk 10 (c5Walk.get ⟨0, by decide⟩)
      (by decide) (by decide) (by decide)).1
  · exact (c5_cursor_excludes_ancestors c5Walk 10 (c5Walk.get ⟨0, by decide⟩)
      (by decide) (by decide) (by decide)).2 (c5Walk.get ⟨1, by decide⟩)
      (AncestorIn.parent (by decide) (by decide) (by decide))
